import Mathlib

/-!
Verification of the Storage-Engine repository (Go sources under memdb/ and
sstable/) against its natural-language specification.

Shallow embedding conventions:
* Go byte strings (keys, values) are `List Nat`, each element one byte.
  Go compares keys with bytewise lexicographic order (`string` comparison in
  memdb.go, `bytes.Compare` in sstable.go); `keyLt` below is that order.
* The memtable of `DB` (memdb.go) keeps a map `data : map[string]Pair`
  together with a sorted slice `keys`.  We embed both as one sorted
  association list `Mem`; `memInsert` is the binary-search insert performed
  by `Set`/`Delete` (sort.Search for the first index with keys[i] >= key,
  then update in place or insert at that index).
* Machine integers are `Nat` with explicit `% 2 ^ w` where Go truncates.
* File contents are `List Nat` of bytes.  Fallible operations return
  `Option`.
-/

/-- A key is a finite byte sequence (Go string / []byte). -/
abbrev Key := List Nat

/-- A value is a finite byte sequence (Go []byte). -/
abbrev Value := List Nat

/-- Bytewise lexicographic strict order on byte strings; this is exactly the
order of Go string comparison `<` and `bytes.Compare(a, b) < 0`. -/
def keyLt : Key → Key → Bool
  | [], [] => false
  | [], _ :: _ => true
  | _ :: _, [] => false
  | a :: as, b :: bs => if a < b then true else if b < a then false else keyLt as bs

/-- Non-strict key order, `a <= b` on Go strings. -/
def keyLe (a b : Key) : Bool := !(keyLt b a)

theorem keyLt_cons_iff {a b : Nat} {as bs : Key} :
    keyLt (a :: as) (b :: bs) = true ↔ a < b ∨ (a = b ∧ keyLt as bs = true) := by
  simp only [keyLt]
  rcases Nat.lt_trichotomy a b with h | h | h
  · simp [h]
  · subst h
    simp
  · have h1 : ¬ a < b := by omega
    have h2 : a ≠ b := by omega
    simp [h1, h, h2]

theorem keyLt_irrefl (a : Key) : keyLt a a = false := by
  induction a with
  | nil => rfl
  | cons x xs ih => simp [keyLt, ih]

theorem keyLt_trans {a b c : Key} (h1 : keyLt a b = true) (h2 : keyLt b c = true) :
    keyLt a c = true := by
  induction a generalizing b c with
  | nil =>
    cases b with
    | nil => simp [keyLt] at h1
    | cons y ys =>
      cases c with
      | nil => simp [keyLt] at h2
      | cons z zs => simp [keyLt]
  | cons x xs ih =>
    cases b with
    | nil => simp [keyLt] at h1
    | cons y ys =>
      cases c with
      | nil => simp [keyLt] at h2
      | cons z zs =>
        rw [keyLt_cons_iff] at h1 h2 ⊢
        rcases h1 with h1 | ⟨he1, h1⟩ <;> rcases h2 with h2 | ⟨he2, h2⟩
        · left; omega
        · left; omega
        · left; omega
        · right; exact ⟨by omega, ih h1 h2⟩

theorem keyLt_total {a b : Key} (h : ¬ keyLt a b = true) (hne : a ≠ b) :
    keyLt b a = true := by
  induction a generalizing b with
  | nil =>
    cases b with
    | nil => exact absurd rfl hne
    | cons y ys => simp [keyLt] at h
  | cons x xs ih =>
    cases b with
    | nil => simp [keyLt]
    | cons y ys =>
      rw [keyLt_cons_iff] at h ⊢
      rcases Nat.lt_trichotomy x y with hxy | hxy | hxy
      · exact absurd (Or.inl hxy) h
      · subst hxy
        have hxs : ¬ keyLt xs ys = true := by
          intro hc; exact h (Or.inr ⟨rfl, hc⟩)
        have hne2 : xs ≠ ys := by
          intro hc; exact hne (by rw [hc])
        exact Or.inr ⟨rfl, ih hxs hne2⟩
      · exact Or.inl hxy

theorem keyLt_asymm {a b : Key} (h : keyLt a b = true) : ¬ keyLt b a = true := by
  intro h2
  have := keyLt_trans h h2
  rw [keyLt_irrefl] at this
  exact Bool.noConfusion this

theorem keyLt_ne {a b : Key} (h : keyLt a b = true) : a ≠ b := by
  intro hEq
  subst hEq
  rw [keyLt_irrefl] at h
  exact Bool.noConfusion h

theorem keyLe_refl (a : Key) : keyLe a a = true := by
  simp [keyLe, keyLt_irrefl]

theorem keyLe_of_lt {a b : Key} (h : keyLt a b = true) : keyLe a b = true := by
  simp [keyLe, keyLt_asymm h]

theorem keyLe_true_iff {a b : Key} : keyLe a b = true ↔ ¬ keyLt b a = true := by
  simp [keyLe]

/-- The `Pair` struct of sstable.go: a value together with a tombstone
marker (`Marker = true` means the entry records a deletion). -/
structure Pair where
  value : Value
  marker : Bool
  deriving DecidableEq, Repr

/-- The memtable: the Go `DB` keeps `data map[string]Pair` plus the sorted
key slice `keys`; we embed both as a single association list that the DB
invariant keeps strictly sorted by key. -/
abbrev Mem := List (Key × Pair)

/-- Lookup `db.data[key]` (first matching association). -/
def memFind : Mem → Key → Option Pair
  | [], _ => none
  | (k', p) :: rest, k => if k' = k then some p else memFind rest k

/-- The insert-or-update of `Set`/`Delete` in memdb.go: binary search for the
first index with `keys[i] >= key` (sort.Search), then either overwrite the
pair in place (`keys[idx] == key`) or insert at that index. -/
def memInsert (k : Key) (p : Pair) : Mem → Mem
  | [] => [(k, p)]
  | (k', p') :: rest =>
    if keyLt k' k then (k', p') :: memInsert k p rest
    else if k' = k then (k, p) :: rest
    else (k, p) :: (k', p') :: rest

/-- The two-structure invariant of the memtable: the sorted view is strictly
increasing (equivalently, our association list is strictly sorted). -/
def memSortedB : Mem → Bool
  | [] => true
  | [_] => true
  | a :: b :: rest => keyLt a.1 b.1 && memSortedB ((b :: rest) : Mem)

theorem memFind_memInsert_self (k : Key) (p : Pair) (m : Mem) :
    memFind (memInsert k p m) k = some p := by
  induction m with
  | nil => simp [memInsert, memFind]
  | cons hd rest ih =>
    obtain ⟨k', p'⟩ := hd
    simp only [memInsert]
    by_cases h1 : keyLt k' k = true
    · have hne : k' ≠ k := keyLt_ne h1
      rw [if_pos h1]
      simp only [memFind]
      rw [if_neg hne]
      exact ih
    · rw [if_neg h1]
      by_cases h2 : k' = k
      · rw [if_pos h2]
        simp [memFind]
      · rw [if_neg h2]
        simp [memFind]

theorem memFind_memInsert_ne (k j : Key) (p : Pair) (m : Mem) (hne : j ≠ k) :
    memFind (memInsert j p m) k = memFind m k := by
  induction m with
  | nil => simp [memInsert, memFind, hne]
  | cons hd rest ih =>
    obtain ⟨k', p'⟩ := hd
    simp only [memInsert]
    by_cases h1 : keyLt k' j = true
    · rw [if_pos h1]
      simp only [memFind]
      by_cases h3 : k' = k
      · rw [if_pos h3, if_pos h3]
      · rw [if_neg h3, if_neg h3]
        exact ih
    · rw [if_neg h1]
      by_cases h2 : k' = j
      · subst h2
        rw [if_pos rfl]
        simp only [memFind]
        rw [if_neg hne, if_neg hne]
      · rw [if_neg h2]
        simp only [memFind]
        rw [if_neg hne]

theorem memSortedB_tail {a : Key × Pair} {m : Mem} (h : memSortedB (a :: m) = true) :
    memSortedB m = true := by
  cases m with
  | nil => rfl
  | cons b rest =>
    simp only [memSortedB, Bool.and_eq_true] at h
    exact h.2

theorem memSortedB_cons_lt {a b : Key × Pair} {m : Mem}
    (h : memSortedB (a :: b :: m) = true) : keyLt a.1 b.1 = true := by
  simp only [memSortedB, Bool.and_eq_true] at h
  exact h.1

theorem memSortedB_cons {a b : Key × Pair} {m : Mem}
    (h1 : keyLt a.1 b.1 = true) (h2 : memSortedB (b :: m) = true) :
    memSortedB (a :: b :: m) = true := by
  simp only [memSortedB, Bool.and_eq_true]
  exact ⟨h1, h2⟩

/-- `memSortedB` only inspects keys, so the pair stored at the head is
irrelevant. -/
theorem memSortedB_cons_pair {a : Key} {p q : Pair} {m : Mem} :
    memSortedB ((a, p) :: m) = memSortedB ((a, q) :: m) := by
  cases m with
  | nil => rfl
  | cons b rest => simp [memSortedB]

theorem memSortedB_memInsert (k : Key) (p : Pair) (m : Mem)
    (h : memSortedB m = true) : memSortedB (memInsert k p m) = true := by
  induction m with
  | nil => rfl
  | cons hd rest ih =>
    obtain ⟨k', p'⟩ := hd
    simp only [memInsert]
    by_cases h1 : keyLt k' k = true
    · rw [if_pos h1]
      have hrest : memSortedB rest = true := memSortedB_tail h
      have ihr := ih hrest
      cases rest with
      | nil =>
        simp only [memInsert]
        exact memSortedB_cons h1 rfl
      | cons b rest2 =>
        obtain ⟨kb, pb⟩ := b
        have hk'b : keyLt k' kb = true := memSortedB_cons_lt h
        simp only [memInsert] at ihr ⊢
        by_cases h2 : keyLt kb k = true
        · rw [if_pos h2] at ihr ⊢
          exact memSortedB_cons hk'b ihr
        · rw [if_neg h2] at ihr ⊢
          by_cases h3 : kb = k
          · rw [if_pos h3] at ihr ⊢
            subst h3
            exact memSortedB_cons hk'b ihr
          · rw [if_neg h3] at ihr ⊢
            exact memSortedB_cons h1 ihr
    · rw [if_neg h1]
      by_cases h2 : k' = k
      · rw [if_pos h2]
        subst h2
        have := @memSortedB_cons_pair k' p p' rest
        rw [this]
        exact h
      · rw [if_neg h2]
        have hlt : keyLt k k' = true := keyLt_total h1 h2
        exact memSortedB_cons hlt h

/-- In a sorted memtable, every key found in the tail is greater than the
head key. -/
theorem memFind_tail_gt {k' : Key} {p' : Pair} {m : Mem} {k : Key} {p : Pair}
    (hs : memSortedB ((k', p') :: m) = true) (hf : memFind m k = some p) :
    keyLt k' k = true := by
  induction m generalizing k' p' with
  | nil => simp [memFind] at hf
  | cons b rest ih =>
    obtain ⟨kb, pb⟩ := b
    have hlt : keyLt k' kb = true := memSortedB_cons_lt hs
    simp only [memFind] at hf
    by_cases hkb : kb = k
    · subst hkb
      exact hlt
    · rw [if_neg hkb] at hf
      have hs2 : memSortedB ((kb, pb) :: rest) = true := memSortedB_tail hs
      exact keyLt_trans hlt (ih hs2 hf)

example : memFind (memInsert [1] ⟨[5], false⟩ []) [1] = some ⟨[5], false⟩ := by decide

/-! ## SSTable entries (sstable.go)

`KeyValuePair` has an operation flag (`Operation uint8`: OpSet = 0,
OpDel = 1), a key and a value. -/

/-- Go `sstable.OpSet` (`Operation` is uint8, so we use `Nat` bytes). -/
def OpSetN : Nat := 0

/-- Go `sstable.OpDel`. -/
def OpDelN : Nat := 1

/-- The `KeyValuePair` struct of sstable.go. -/
structure KeyValuePair where
  op : Nat
  key : List Nat
  value : List Nat
  deriving DecidableEq, Repr

/-- An SSTable body: the `KeyValues` slice of one table, in file order. -/
abbrev Table := List KeyValuePair

/-- The map-to-slice conversion at the top of `CreateAndWriteSSTable`: for a
tombstoned entry the Go code appends an `OpDel` pair and then (there is no
`else`) ALSO an `OpSet` pair carrying the stored value; for a live entry it
appends only the `OpSet` pair.  Go iterates the map in unspecified order and
then sorts; we iterate our association list in its own order (the DB keeps it
key-sorted) and apply the stable `sortEntries` below, which reproduces the
per-key Del-before-Set emission order that the spec's data model pins down
for the file format. -/
def memToEntries (m : Mem) : Table :=
  m.foldr
    (fun kp acc =>
      (if kp.2.marker then [⟨OpDelN, kp.1, []⟩] else []) ++ ⟨OpSetN, kp.1, kp.2.value⟩ :: acc)
    []

/-- Stable insertion used by `sortEntries`: the new element goes before the
first element with a key `>=` its own, so elements with equal keys keep
their original relative order. -/
def insertSorted (e : KeyValuePair) : Table → Table
  | [] => [e]
  | f :: fs => if keyLe e.key f.key then e :: f :: fs else f :: insertSorted e fs

/-- The `sort.Slice(keyValuePairs, bytes.Compare(...) < 0)` call of
`CreateAndWriteSSTable`, embedded as a stable sort by key (Go's sort is
unstable in general, but runs a stable insertion sort on short slices and
only the relative order of equal keys — the Del/Set pair of one tombstone —
is unspecified; the spec fixes that order to (Del, Set)). -/
def sortEntries : Table → Table
  | [] => []
  | e :: es => insertSorted e (sortEntries es)

/-- Entries in non-decreasing key order (the SSTable file invariant). -/
def entriesSortedLe : Table → Bool
  | [] => true
  | [_] => true
  | a :: b :: rest => keyLe a.key b.key && entriesSortedLe ((b :: rest) : Table)

/-! ## Byte-level SSTable codec (sstable.go) -/

/-- Big-endian u32 encoding, `binary.BigEndian.PutUint32` (Go truncates the
argument to 32 bits, hence the `% 256` residues of the four byte positions).
-/
def be32 (n : Nat) : List Nat :=
  [n / 2 ^ 24 % 256, n / 2 ^ 16 % 256, n / 2 ^ 8 % 256, n % 256]

/-- Big-endian u16 encoding, `binary.BigEndian.PutUint16`. -/
def be16 (n : Nat) : List Nat := [n / 2 ^ 8 % 256, n % 256]

/-- Big-endian u32 decoding, `binary.BigEndian.Uint32` (each file byte is
below 256; the `% 256` mirrors reading single bytes). -/
def beU32 (bs : List Nat) : Nat := bs.foldl (fun a b => a * 256 + b % 256) 0

/-- Big-endian u16 decoding, `binary.BigEndian.Uint16`. -/
def beU16 (bs : List Nat) : Nat := bs.foldl (fun a b => a * 256 + b % 256) 0

/-- `copy(data[8:12], header.SmallestKey)` into a zeroed 4-byte field: the
key is truncated to 4 bytes or zero-padded on the right. -/
def pad4 (k : List Nat) : List Nat := k.take 4 ++ List.replicate (4 - k.length) 0

/-- The magic constant of sstable.go, `uint32(221003)` (hex 0x00035F4B). -/
def MagicNumber : Nat := 221003

/-- `writeHeader`: magic, entry count, 4-byte smallest and largest key
fields, version 1 — all big-endian, 18 bytes. -/
def encodeHeader (count : Nat) (smallest largest : List Nat) : List Nat :=
  be32 MagicNumber ++ be32 count ++ pad4 smallest ++ pad4 largest ++ be16 1

/-- `writeKeyValuePair`: op byte, u32 key length, u32 value length, key
bytes, value bytes. -/
def encodeEntry (e : KeyValuePair) : List Nat :=
  e.op % 256 :: (be32 e.key.length ++ be32 e.value.length ++ e.key ++ e.value)

/-- The body of the file: all entries concatenated in order. -/
def encodeEntries (es : Table) : List Nat :=
  es.foldr (fun e acc => encodeEntry e ++ acc) []

/-- The byte stream hashed by `calculateChecksum`: each entry's key bytes
then value bytes, in file order (`crc.Write(kv.Key); crc.Write(kv.Value)`).
-/
def crcBytes (es : Table) : List Nat :=
  es.foldr (fun e acc => e.key ++ e.value ++ acc) []

/-- One bit-step of the reflected CRC-32 (IEEE 802.3 polynomial), as in Go's
hash/crc32 with crc32.IEEE. -/
def crc32Round (c : Nat) : Nat :=
  if c % 2 = 1 then Nat.xor (c / 2) 0xEDB88320 else c / 2

/-- Eight CRC bit-steps. -/
def crc32Rounds : Nat → Nat → Nat
  | 0, c => c
  | n + 1, c => crc32Rounds n (crc32Round c)

/-- Fold one byte into the running CRC. -/
def crc32Byte (c b : Nat) : Nat := crc32Rounds 8 (Nat.xor c (b % 256))

/-- CRC-32 (IEEE) of a byte sequence; the trailing `% 2 ^ 32` records that
the Go value is a uint32 (the computation never exceeds 32 bits). -/
def crc32 (bs : List Nat) : Nat :=
  Nat.xor (bs.foldl crc32Byte 0xFFFFFFFF) 0xFFFFFFFF % 2 ^ 32

/-- `calculateChecksum` of sstable.go. -/
def calculateChecksum (es : Table) : Nat := crc32 (crcBytes es)

/-- `CreateAndWriteSSTable` followed by `WriteSSTable`, producing the byte
contents of the file. `keyValuePairs[0]` on an empty slice panics with an
index-out-of-range in Go, which we model as `none`; every other path writes
header, entries and CRC trailer. -/
def createAndWriteSSTable (m : Mem) : Option (List Nat) :=
  let es := sortEntries (memToEntries m)
  match es with
  | [] => none
  | e0 :: rest =>
    let all := e0 :: rest
    some (encodeHeader all.length e0.key ((all.getLastD e0).key)
          ++ encodeEntries all
          ++ be32 (calculateChecksum all))

/-- The `SSTableHeader` struct as parsed back by `readHeader` (the key
fields come back as raw 4-byte slices). -/
structure SSTableHeader where
  magicNumber : Nat
  entryCount : Nat
  smallestKey : List Nat
  largestKey : List Nat
  version : Nat
  deriving DecidableEq, Repr

/-- The `SSTable` struct as returned by `ReadSSTable`. -/
structure SSTable where
  header : SSTableHeader
  keyValues : Table
  checksum : Nat
  deriving DecidableEq, Repr

/-- `readHeader`: read 18 bytes (io.ReadFull fails on short read) and
decode the five fields. -/
def readHeader (bs : List Nat) : Option (SSTableHeader × List Nat) :=
  if 18 ≤ bs.length then
    some (⟨beU32 (bs.take 4), beU32 ((bs.drop 4).take 4), (bs.drop 8).take 4,
           (bs.drop 12).take 4, beU16 ((bs.drop 16).take 2)⟩, bs.drop 18)
  else none

/-- `readKeyValues`: read `count` entries, each a 9-byte header followed by
key and value bytes; any short read fails. -/
def readKeyValues : Nat → List Nat → Option (Table × List Nat)
  | 0, bs => some ([], bs)
  | n + 1, bs =>
    if 9 ≤ bs.length then
      let op := bs.headD 0
      let keyLen := beU32 ((bs.drop 1).take 4)
      let valLen := beU32 ((bs.drop 5).take 4)
      let rest := bs.drop 9
      if keyLen ≤ rest.length then
        let key := rest.take keyLen
        let rest2 := rest.drop keyLen
        if valLen ≤ rest2.length then
          match readKeyValues n (rest2.drop valLen) with
          | some (es, rem) => some (⟨op, key, rest2.take valLen⟩ :: es, rem)
          | none => none
        else none
      else none
    else none

/-- `ReadSSTable` on file contents: parse the header, the entries, then the
4-byte CRC trailer; recompute the CRC over the parsed entries and fail on a
mismatch. -/
def readSSTable (bs : List Nat) : Option SSTable :=
  match readHeader bs with
  | none => none
  | some (h, body) =>
    match readKeyValues h.entryCount body with
    | none => none
    | some (es, rem) =>
      if 4 ≤ rem.length then
        let actual := beU32 (rem.take 4)
        if actual = calculateChecksum es then some ⟨h, es, actual⟩ else none
      else none

/-! ## Round-trip lemmas for the SSTable codec -/

theorem take_len_append {α : Type} (l₁ l₂ : List α) {n : Nat} (h : l₁.length = n) :
    (l₁ ++ l₂).take n = l₁ := List.take_left' h

theorem drop_len_append {α : Type} (l₁ l₂ : List α) {n : Nat} (h : l₁.length = n) :
    (l₁ ++ l₂).drop n = l₂ := List.drop_left' h

theorem be32_length (n : Nat) : (be32 n).length = 4 := rfl

theorem beU32_be32 {n : Nat} (h : n < 2 ^ 32) : beU32 (be32 n) = n := by
  simp only [be32, beU32, List.foldl]
  omega

theorem pad4_length (k : List Nat) : (pad4 k).length = 4 := by
  simp only [pad4, List.length_append, List.length_take, List.length_replicate]
  omega

theorem crc32_lt (bs : List Nat) : crc32 bs < 2 ^ 32 := by
  simp only [crc32]
  exact Nat.mod_lt _ (by norm_num)

theorem encodeEntry_eq (e : KeyValuePair) :
    encodeEntry e =
      e.op % 256 :: (be32 e.key.length ++ (be32 e.value.length ++ (e.key ++ e.value))) := by
  simp [encodeEntry, List.append_assoc]

theorem encodeEntries_cons (e : KeyValuePair) (es : Table) :
    encodeEntries (e :: es) = encodeEntry e ++ encodeEntries es := rfl

theorem crcBytes_cons (e : KeyValuePair) (es : Table) :
    crcBytes (e :: es) = e.key ++ e.value ++ crcBytes es := by
  simp [crcBytes, List.append_assoc]

/-- Parsing one encoded entry off the front of the stream. -/
theorem readKeyValues_step (e : KeyValuePair) (rest : List Nat) (n : Nat)
    (hop : e.op < 256) (hk : e.key.length < 2 ^ 32) (hv : e.value.length < 2 ^ 32) :
    readKeyValues (n + 1) (encodeEntry e ++ rest) =
      match readKeyValues n rest with
      | some (es, rem) => some (e :: es, rem)
      | none => none := by
  obtain ⟨eop, ekey, eval⟩ := e
  simp only at hop hk hv
  have hbs : encodeEntry ⟨eop, ekey, eval⟩ ++ rest =
      eop % 256 :: (be32 ekey.length ++ (be32 eval.length ++ (ekey ++ (eval ++ rest)))) := by
    rw [encodeEntry_eq]
    simp [List.append_assoc]
  rw [hbs]
  set bs := eop % 256 :: (be32 ekey.length ++ (be32 eval.length ++ (ekey ++ (eval ++ rest))))
    with hbsdef
  have hlen : 9 ≤ bs.length := by
    simp [hbsdef, be32_length]
    omega
  have hhead : bs.headD 0 = eop := by
    simp [hbsdef, Nat.mod_eq_of_lt hop]
  have hdrop1 : bs.drop 1 = be32 ekey.length ++ (be32 eval.length ++ (ekey ++ (eval ++ rest))) := by
    rw [hbsdef]
    rfl
  have hkl : (bs.drop 1).take 4 = be32 ekey.length := by
    rw [hdrop1]
    exact take_len_append _ _ (be32_length _)
  have hdrop5 : bs.drop 5 = be32 eval.length ++ (ekey ++ (eval ++ rest)) := by
    have : bs.drop 5 = (bs.drop 1).drop 4 := by
      rw [List.drop_drop]
    rw [this, hdrop1]
    exact drop_len_append _ _ (be32_length _)
  have hvl : (bs.drop 5).take 4 = be32 eval.length := by
    rw [hdrop5]
    exact take_len_append _ _ (be32_length _)
  have hdrop9 : bs.drop 9 = ekey ++ (eval ++ rest) := by
    have : bs.drop 9 = (bs.drop 5).drop 4 := by
      rw [List.drop_drop]
    rw [this, hdrop5]
    exact drop_len_append _ _ (be32_length _)
  have hklen : ekey.length ≤ (bs.drop 9).length := by
    rw [hdrop9]
    simp
  have hkey : (bs.drop 9).take ekey.length = ekey := by
    rw [hdrop9]
    exact take_len_append _ _ rfl
  have hdropk : (bs.drop 9).drop ekey.length = eval ++ rest := by
    rw [hdrop9]
    exact drop_len_append _ _ rfl
  have hvlen : eval.length ≤ ((bs.drop 9).drop ekey.length).length := by
    rw [hdropk]
    simp
  have hval : ((bs.drop 9).drop ekey.length).take eval.length = eval := by
    rw [hdropk]
    exact take_len_append _ _ rfl
  have hdropv : ((bs.drop 9).drop ekey.length).drop eval.length = rest := by
    rw [hdropk]
    exact drop_len_append _ _ rfl
  simp only [readKeyValues, hlen, if_pos, hhead, hkl, hvl, beU32_be32 hk, beU32_be32 hv,
    hklen, hkey, hdropk, hvlen, hval, hdropv]
  rw [if_pos (by simp : eval.length ≤ (eval ++ rest).length)]
  rw [take_len_append eval rest rfl, drop_len_append eval rest rfl]

/-- Parsing the encoded body recovers exactly the encoded entry list. -/
theorem readKeyValues_encode (es : Table) (tail : List Nat)
    (h : ∀ e ∈ es, e.op < 256 ∧ e.key.length < 2 ^ 32 ∧ e.value.length < 2 ^ 32) :
    readKeyValues es.length (encodeEntries es ++ tail) = some (es, tail) := by
  induction es with
  | nil => simp [readKeyValues, encodeEntries]
  | cons e es' ih =>
    have he := h e (List.mem_cons_self e es')
    have hes' : ∀ x ∈ es', x.op < 256 ∧ x.key.length < 2 ^ 32 ∧ x.value.length < 2 ^ 32 :=
      fun x hx => h x (List.mem_cons_of_mem e hx)
    rw [encodeEntries_cons, List.append_assoc, List.length_cons,
      readKeyValues_step e _ es'.length he.1 he.2.1 he.2.2, ih hes']

theorem encodeHeader_assoc (cnt : Nat) (s l : List Nat) (rest : List Nat) :
    encodeHeader cnt s l ++ rest =
      be32 MagicNumber ++ (be32 cnt ++ (pad4 s ++ (pad4 l ++ (be16 1 ++ rest)))) := by
  simp [encodeHeader, List.append_assoc]

/-- Parsing the encoded header recovers its fields (the key fields come back
as their 4-byte padded/truncated forms). -/
theorem readHeader_encode (cnt : Nat) (s l : List Nat) (rest : List Nat)
    (hcnt : cnt < 2 ^ 32) :
    readHeader (encodeHeader cnt s l ++ rest) =
      some (⟨MagicNumber, cnt, pad4 s, pad4 l, 1⟩, rest) := by
  rw [encodeHeader_assoc]
  set bs := be32 MagicNumber ++ (be32 cnt ++ (pad4 s ++ (pad4 l ++ (be16 1 ++ rest))))
    with hbsdef
  have hlen : 18 ≤ bs.length := by
    simp [hbsdef, be32_length, pad4_length, be16]
    omega
  have h4 : bs.take 4 = be32 MagicNumber := by
    rw [hbsdef]; exact take_len_append _ _ (be32_length _)
  have hd4 : bs.drop 4 = be32 cnt ++ (pad4 s ++ (pad4 l ++ (be16 1 ++ rest))) := by
    rw [hbsdef]; exact drop_len_append _ _ (be32_length _)
  have h8 : (bs.drop 4).take 4 = be32 cnt := by
    rw [hd4]; exact take_len_append _ _ (be32_length _)
  have hd8 : bs.drop 8 = pad4 s ++ (pad4 l ++ (be16 1 ++ rest)) := by
    have : bs.drop 8 = (bs.drop 4).drop 4 := by rw [List.drop_drop]
    rw [this, hd4]; exact drop_len_append _ _ (be32_length _)
  have h12 : (bs.drop 8).take 4 = pad4 s := by
    rw [hd8]; exact take_len_append _ _ (pad4_length _)
  have hd12 : bs.drop 12 = pad4 l ++ (be16 1 ++ rest) := by
    have : bs.drop 12 = (bs.drop 8).drop 4 := by rw [List.drop_drop]
    rw [this, hd8]; exact drop_len_append _ _ (pad4_length _)
  have h16 : (bs.drop 12).take 4 = pad4 l := by
    rw [hd12]; exact take_len_append _ _ (pad4_length _)
  have hd16 : bs.drop 16 = be16 1 ++ rest := by
    have : bs.drop 16 = (bs.drop 12).drop 4 := by rw [List.drop_drop]
    rw [this, hd12]; exact drop_len_append _ _ (pad4_length _)
  have h18 : (bs.drop 16).take 2 = be16 1 := by
    rw [hd16]; exact take_len_append _ _ rfl
  have hd18 : bs.drop 18 = rest := by
    have : bs.drop 18 = (bs.drop 16).drop 2 := by rw [List.drop_drop]
    rw [this, hd16]; exact drop_len_append _ _ rfl
  have hM : beU32 (be32 MagicNumber) = MagicNumber := beU32_be32 (by norm_num [MagicNumber])
  have h116 : beU16 (be16 1) = 1 := by decide
  simp only [readHeader, hlen, if_pos, h4, h8, h12, h16, h18, hd18, hM, beU32_be32 hcnt, h116]

theorem take_all_of_len {α : Type} (l : List α) {n : Nat} (h : l.length = n) :
    l.take n = l := by
  subst h
  exact List.take_length l

/-- Writing a table and reading it back: `ReadSSTable` on the bytes produced
by the writer recovers the header fields, exactly the written entries, and a
verified checksum. -/
theorem readSSTable_encode (e0 : KeyValuePair) (rest : Table)
    (hall : ∀ e ∈ e0 :: rest, e.op < 256 ∧ e.key.length < 2 ^ 32 ∧ e.value.length < 2 ^ 32)
    (hcnt : (e0 :: rest).length < 2 ^ 32) :
    readSSTable (encodeHeader (e0 :: rest).length e0.key (((e0 :: rest).getLastD e0).key)
        ++ encodeEntries (e0 :: rest) ++ be32 (calculateChecksum (e0 :: rest)))
      = some ⟨⟨MagicNumber, (e0 :: rest).length, pad4 e0.key,
               pad4 (((e0 :: rest).getLastD e0).key), 1⟩,
              e0 :: rest, calculateChecksum (e0 :: rest)⟩ := by
  rw [List.append_assoc]
  simp only [readSSTable]
  rw [readHeader_encode _ _ _ _ hcnt]
  simp only
  rw [readKeyValues_encode (e0 :: rest) _ hall]
  simp only
  have hcrc4 : (be32 (calculateChecksum (e0 :: rest))).length = 4 := be32_length _
  rw [if_pos (le_of_eq hcrc4.symm)]
  rw [take_all_of_len _ hcrc4]
  have hlt : calculateChecksum (e0 :: rest) < 2 ^ 32 := crc32_lt _
  rw [beU32_be32 hlt]
  rw [if_pos rfl]

/-! ## Sortedness and membership facts about the entry slice -/

theorem keyLt_of_not_le {a b : Key} (h : ¬ keyLe a b = true) : keyLt b a = true := by
  simpa [keyLe] using h

theorem keyLe_trans {a b c : Key} (h1 : keyLe a b = true) (h2 : keyLe b c = true) :
    keyLe a c = true := by
  rw [keyLe_true_iff] at h1 h2 ⊢
  intro hca
  by_cases hba : b = a
  · subst hba
    exact h2 hca
  · exact h2 (keyLt_trans hca (keyLt_total h1 hba))

theorem mem_insertSorted {e f : KeyValuePair} {l : Table} :
    e ∈ insertSorted f l ↔ e = f ∨ e ∈ l := by
  induction l with
  | nil => simp [insertSorted]
  | cons g gs ih =>
    simp only [insertSorted]
    by_cases h : keyLe f.key g.key = true
    · rw [if_pos h]
      simp
    · rw [if_neg h]
      simp [ih]
      tauto

theorem mem_sortEntries {e : KeyValuePair} {l : Table} :
    e ∈ sortEntries l ↔ e ∈ l := by
  induction l with
  | nil => simp [sortEntries]
  | cons f fs ih => simp [sortEntries, mem_insertSorted, ih]

theorem insertSorted_length (e : KeyValuePair) (l : Table) :
    (insertSorted e l).length = l.length + 1 := by
  induction l with
  | nil => rfl
  | cons g gs ih =>
    simp only [insertSorted]
    by_cases h : keyLe e.key g.key = true
    · rw [if_pos h]
      rfl
    · rw [if_neg h]
      simp [ih]

theorem sortEntries_length (l : Table) : (sortEntries l).length = l.length := by
  induction l with
  | nil => rfl
  | cons e es ih => simp [sortEntries, insertSorted_length, ih]

theorem entriesSortedLe_tail {a : KeyValuePair} {l : Table}
    (h : entriesSortedLe (a :: l) = true) : entriesSortedLe l = true := by
  cases l with
  | nil => rfl
  | cons b rest =>
    simp only [entriesSortedLe, Bool.and_eq_true] at h
    exact h.2

theorem entriesSortedLe_cons_le {a b : KeyValuePair} {l : Table}
    (h : entriesSortedLe (a :: b :: l) = true) : keyLe a.key b.key = true := by
  simp only [entriesSortedLe, Bool.and_eq_true] at h
  exact h.1

theorem entriesSortedLe_cons {a b : KeyValuePair} {l : Table}
    (h1 : keyLe a.key b.key = true) (h2 : entriesSortedLe (b :: l) = true) :
    entriesSortedLe (a :: b :: l) = true := by
  simp only [entriesSortedLe, Bool.and_eq_true]
  exact ⟨h1, h2⟩

theorem entriesSortedLe_insertSorted {e : KeyValuePair} {l : Table}
    (h : entriesSortedLe l = true) : entriesSortedLe (insertSorted e l) = true := by
  induction l with
  | nil => rfl
  | cons f fs ih =>
    simp only [insertSorted]
    by_cases hef : keyLe e.key f.key = true
    · rw [if_pos hef]
      exact entriesSortedLe_cons hef h
    · rw [if_neg hef]
      have hfe : keyLe f.key e.key = true := keyLe_of_lt (keyLt_of_not_le hef)
      have htail := entriesSortedLe_tail h
      have ihr := ih htail
      cases fs with
      | nil => exact entriesSortedLe_cons hfe rfl
      | cons g gs =>
        simp only [insertSorted] at ihr ⊢
        by_cases heg : keyLe e.key g.key = true
        · rw [if_pos heg] at ihr ⊢
          exact entriesSortedLe_cons hfe ihr
        · rw [if_neg heg] at ihr ⊢
          exact entriesSortedLe_cons (entriesSortedLe_cons_le h) ihr

theorem sortEntries_sorted (l : Table) : entriesSortedLe (sortEntries l) = true := by
  induction l with
  | nil => rfl
  | cons e es ih => exact entriesSortedLe_insertSorted ih

/-- A stable sort of an already-sorted slice is the identity. -/
theorem sortEntries_eq_of_sorted {l : Table} (h : entriesSortedLe l = true) :
    sortEntries l = l := by
  induction l with
  | nil => rfl
  | cons e es ih =>
    have htail := entriesSortedLe_tail h
    simp only [sortEntries, ih htail]
    cases es with
    | nil => rfl
    | cons f fs =>
      have hef : keyLe e.key f.key = true := entriesSortedLe_cons_le h
      simp [insertSorted, hef]

theorem sorted_head_le {e : KeyValuePair} {l : Table}
    (h : entriesSortedLe (e :: l) = true) : ∀ x ∈ l, keyLe e.key x.key = true := by
  induction l generalizing e with
  | nil => simp
  | cons f fs ih =>
    intro x hx
    have hef : keyLe e.key f.key = true := entriesSortedLe_cons_le h
    rcases List.mem_cons.mp hx with hx | hx
    · subst hx
      exact hef
    · exact keyLe_trans hef (ih (entriesSortedLe_tail h) x hx)

theorem getLastD_cons_cons {α : Type} (a b : α) (l : List α) (d : α) :
    (a :: b :: l).getLastD d = (b :: l).getLastD d := rfl

theorem sorted_le_last {l : Table} (d : KeyValuePair)
    (h : entriesSortedLe l = true) : ∀ x ∈ l, keyLe x.key ((l.getLastD d).key) = true := by
  induction l generalizing d with
  | nil => simp
  | cons e es ih =>
    intro x hx
    cases es with
    | nil =>
      rcases List.mem_cons.mp hx with hx | hx
      · subst hx
        exact keyLe_refl _
      · simp at hx
    | cons f fs =>
      rw [getLastD_cons_cons]
      rcases List.mem_cons.mp hx with hx | hx
      · subst hx
        have hef : keyLe x.key f.key = true := entriesSortedLe_cons_le h
        have := ih d (entriesSortedLe_tail h) f (List.mem_cons_self f fs)
        exact keyLe_trans hef this
      · exact ih d (entriesSortedLe_tail h) x hx

/-! ## Facts about memToEntries -/

theorem memToEntries_nil : memToEntries [] = [] := rfl

theorem memToEntries_cons (k : Key) (p : Pair) (m : Mem) :
    memToEntries ((k, p) :: m) =
      (if p.marker then [⟨OpDelN, k, []⟩] else []) ++ ⟨OpSetN, k, p.value⟩ :: memToEntries m :=
  rfl

theorem memToEntries_bounds {m : Mem}
    (hm : ∀ kp ∈ m, kp.1.length < 2 ^ 32 ∧ kp.2.value.length < 2 ^ 32) :
    ∀ e ∈ memToEntries m, e.op < 256 ∧ e.key.length < 2 ^ 32 ∧ e.value.length < 2 ^ 32 := by
  induction m with
  | nil => simp [memToEntries]
  | cons kp rest ih =>
    obtain ⟨k, p⟩ := kp
    have hhd := hm (k, p) (List.mem_cons_self _ _)
    have hrest : ∀ kp ∈ rest, kp.1.length < 2 ^ 32 ∧ kp.2.value.length < 2 ^ 32 :=
      fun x hx => hm x (List.mem_cons_of_mem _ hx)
    intro e he
    rw [memToEntries_cons] at he
    cases hmk : p.marker with
    | true =>
      rw [hmk] at he
      rcases (by simpa using he :
          e = ⟨OpDelN, k, []⟩ ∨ e = ⟨OpSetN, k, p.value⟩ ∨ e ∈ memToEntries rest) with
        he | he | he
      · subst he
        refine ⟨by norm_num [OpDelN], hhd.1, by norm_num⟩
      · subst he
        exact ⟨by norm_num [OpSetN], hhd.1, hhd.2⟩
      · exact ih hrest e he
    | false =>
      rw [hmk] at he
      rcases (by simpa using he :
          e = ⟨OpSetN, k, p.value⟩ ∨ e ∈ memToEntries rest) with he | he
      · subst he
        exact ⟨by norm_num [OpSetN], hhd.1, hhd.2⟩
      · exact ih hrest e he

theorem memToEntries_length_le (m : Mem) : (memToEntries m).length ≤ 2 * m.length := by
  induction m with
  | nil => simp [memToEntries]
  | cons kp rest ih =>
    obtain ⟨k, p⟩ := kp
    rw [memToEntries_cons]
    cases p.marker <;> simp <;> omega

theorem memToEntries_length_ge (m : Mem) : m.length ≤ (memToEntries m).length := by
  induction m with
  | nil => simp [memToEntries]
  | cons kp rest ih =>
    obtain ⟨k, p⟩ := kp
    rw [memToEntries_cons]
    cases p.marker <;> simp <;> omega

theorem memToEntries_sorted {m : Mem} (h : memSortedB m = true) :
    entriesSortedLe (memToEntries m) = true := by
  induction m with
  | nil => rfl
  | cons kp rest ih =>
    obtain ⟨k, p⟩ := kp
    have htail : memSortedB rest = true := memSortedB_tail h
    have ihr := ih htail
    rw [memToEntries_cons]
    have hset : entriesSortedLe (⟨OpSetN, k, p.value⟩ :: memToEntries rest) = true := by
      cases rest with
      | nil => rfl
      | cons kp2 rest2 =>
        obtain ⟨k2, p2⟩ := kp2
        have hlt : keyLt k k2 = true := memSortedB_cons_lt h
        have hle : keyLe k k2 = true := keyLe_of_lt hlt
        rw [memToEntries_cons] at ihr ⊢
        cases hm2 : p2.marker with
        | true =>
          rw [hm2] at ihr
          exact entriesSortedLe_cons hle ihr
        | false =>
          rw [hm2] at ihr
          exact entriesSortedLe_cons hle ihr
    cases hmk : p.marker with
    | true => exact entriesSortedLe_cons (keyLe_refl k) hset
    | false => exact hset

/-! ## Claims about the SSTable writer (C4, C9, C10) -/

theorem memInsert_ne_nil (k : Key) (p : Pair) (m : Mem) : memInsert k p m ≠ [] := by
  cases m with
  | nil => simp [memInsert]
  | cons hd rest =>
    obtain ⟨k', p'⟩ := hd
    simp only [memInsert]
    split
    · simp
    · split <;> simp

theorem sortEntries_memToEntries_ne_nil {m : Mem} (hne : m ≠ []) :
    ∃ e0 rest, sortEntries (memToEntries m) = e0 :: rest := by
  have h1 : 0 < m.length := List.length_pos.mpr hne
  have h2 : 0 < (sortEntries (memToEntries m)).length := by
    rw [sortEntries_length]
    have := memToEntries_length_ge m
    omega
  cases hc : sortEntries (memToEntries m) with
  | nil =>
    rw [hc] at h2
    simp at h2
  | cons a b => exact ⟨a, b, rfl⟩

theorem createAndWriteSSTable_eq {m : Mem} {e0 : KeyValuePair} {rest : Table}
    (hes : sortEntries (memToEntries m) = e0 :: rest) :
    createAndWriteSSTable m =
      some (encodeHeader (e0 :: rest).length e0.key (((e0 :: rest).getLastD e0).key)
            ++ encodeEntries (e0 :: rest) ++ be32 (calculateChecksum (e0 :: rest))) := by
  simp only [createAndWriteSSTable]
  rw [hes]

theorem createAndWriteSSTable_nil_of {m : Mem}
    (hes : sortEntries (memToEntries m) = []) : createAndWriteSSTable m = none := by
  simp only [createAndWriteSSTable]
  rw [hes]

/-- Claim C10: `CreateAndWriteSSTable` is total exactly on non-empty maps:
for a non-empty memtable the accesses `keyValuePairs[0]` and
`keyValuePairs[len-1]` are in bounds and a file is produced, while for the
empty map the index-0 access is out of range (modelled by `none`); the
caller `FlushToSSTable` reached from `Set` always passes the memtable that
just received `memInsert`, which is never empty. -/
theorem createSSTable_requires_nonempty (m : Mem) (hne : m ≠ []) :
    (createAndWriteSSTable m).isSome = true ∧
    createAndWriteSSTable [] = none ∧
    (∀ (mem0 : Mem) (k : Key) (v : Value),
      (createAndWriteSSTable (memInsert k ⟨v, false⟩ mem0)).isSome = true) := by
  have hmain : ∀ (m' : Mem), m' ≠ [] → (createAndWriteSSTable m').isSome = true := by
    intro m' hne'
    obtain ⟨e0, rest, hes⟩ := sortEntries_memToEntries_ne_nil hne'
    rw [createAndWriteSSTable_eq hes]
    rfl
  exact ⟨hmain m hne, rfl, fun mem0 k v => hmain _ (memInsert_ne_nil k ⟨v, false⟩ mem0)⟩

theorem createSSTable_requires_nonempty_witness :
    ([([1], ⟨[7], false⟩)] : Mem) ≠ [] ∧
    (createAndWriteSSTable [([1], ⟨[7], false⟩)]).isSome = true :=
  ⟨by decide, (createSSTable_requires_nonempty [([1], ⟨[7], false⟩)] (by decide)).1⟩

/-- Claim C9 counterexample: the file written for the one-entry memtable
{[1] ↦ [7]} starts with the big-endian bytes of 221003 = 0x00035F4B, and
221003 is not the spec's hex constant 0x00035F7B (= 221051). -/
theorem sstable_magic_hex_counterexample :
    (createAndWriteSSTable [([1], ⟨[7], false⟩)]).map (fun bs => bs.take 4) =
        some [0, 3, 95, 75] ∧
    beU32 [0, 3, 95, 75] = 221003 ∧ (221003 : Nat) ≠ 0x00035F7B := by decide

/-- Claim C9 (amended): every SSTable file produced by
`CreateAndWriteSSTable` begins with the big-endian u32 encoding of the magic
constant 221003 (hex 0x00035F4B). -/
theorem sstable_magic_number (m : Mem) (hne : m ≠ []) :
    (createAndWriteSSTable m).map (fun bs => bs.take 4) = some (be32 MagicNumber) ∧
    beU32 (be32 MagicNumber) = 221003 := by
  obtain ⟨e0, rest, hes⟩ := sortEntries_memToEntries_ne_nil hne
  rw [createAndWriteSSTable_eq hes]
  constructor
  · simp only [Option.map_some']
    rw [List.append_assoc, encodeHeader_assoc]
    rw [take_len_append _ _ (be32_length MagicNumber)]
  · decide

theorem sstable_magic_number_witness :
    ([([1], ⟨[7], false⟩)] : Mem) ≠ [] ∧
    (createAndWriteSSTable [([1], ⟨[7], false⟩)]).map (fun bs => bs.take 4) =
      some (be32 MagicNumber) :=
  ⟨by decide, (sstable_magic_number [([1], ⟨[7], false⟩)] (by decide)).1⟩

/-- Claim C4 counterexample: for the memtable {[1] ↦ [7]} the write/read
round trip succeeds, but the returned `Header.SmallestKey` is the 4-byte
zero-padded field [1,0,0,0], not the minimum key [1]. -/
theorem sstable_smallest_key_counterexample :
    ((createAndWriteSSTable [([1], ⟨[7], false⟩)]).bind readSSTable).map
        (fun t => t.header.smallestKey) = some [1, 0, 0, 0] ∧
    ([1, 0, 0, 0] : List Nat) ≠ [1] := by decide

/-- Claim C4 (amended): for every non-empty memtable map (with key/value
lengths below 2^32 and fewer than 2^31 entries), writing with
`CreateAndWriteSSTable` and reading back with `ReadSSTable` succeeds (the
CRC verifies), returns exactly the written entries (one `Set` entry per
live key and a `Del`-and-`Set` pair per tombstoned key), and the returned
`Header.SmallestKey`/`LargestKey` are the minimum/maximum entry keys
truncated or zero-padded to exactly 4 bytes. -/
theorem sstable_write_read_roundtrip (m : Mem) (bs : List Nat)
    (hb : ∀ kp ∈ m, kp.1.length < 2 ^ 32 ∧ kp.2.value.length < 2 ^ 32)
    (hsize : m.length < 2 ^ 31)
    (hw : createAndWriteSSTable m = some bs) :
    ∃ e0 rest, sortEntries (memToEntries m) = e0 :: rest ∧
      readSSTable bs = some ⟨⟨MagicNumber, (e0 :: rest).length, pad4 e0.key,
          pad4 (((e0 :: rest).getLastD e0).key), 1⟩, e0 :: rest,
          calculateChecksum (e0 :: rest)⟩ ∧
      entriesSortedLe (e0 :: rest) = true ∧
      ∀ x ∈ e0 :: rest, keyLe e0.key x.key = true ∧
        keyLe x.key (((e0 :: rest).getLastD e0).key) = true := by
  cases hes : sortEntries (memToEntries m) with
  | nil =>
    rw [createAndWriteSSTable_nil_of hes] at hw
    exact Option.noConfusion hw
  | cons e0 rest =>
    rw [createAndWriteSSTable_eq hes] at hw
    injection hw with hw
    subst hw
    have hsorted : entriesSortedLe (e0 :: rest) = true := by
      rw [← hes]
      exact sortEntries_sorted _
    have hall : ∀ e ∈ e0 :: rest, e.op < 256 ∧ e.key.length < 2 ^ 32 ∧
        e.value.length < 2 ^ 32 := by
      intro e he
      have : e ∈ memToEntries m := by
        rw [← mem_sortEntries (l := memToEntries m), hes]
        exact he
      exact memToEntries_bounds hb e this
    have hcnt : (e0 :: rest).length < 2 ^ 32 := by
      have h1 : (sortEntries (memToEntries m)).length = (memToEntries m).length :=
        sortEntries_length _
      rw [hes] at h1
      have h2 := memToEntries_length_le m
      have : (2 : Nat) ^ 31 * 2 = 2 ^ 32 := by norm_num
      omega
    refine ⟨e0, rest, rfl, readSSTable_encode e0 rest hall hcnt, hsorted, ?_⟩
    intro x hx
    constructor
    · rcases List.mem_cons.mp hx with hx | hx
      · subst hx
        exact keyLe_refl _
      · exact sorted_head_le hsorted x hx
    · exact sorted_le_last e0 hsorted x hx

theorem sstable_write_read_roundtrip_witness :
    (∀ kp ∈ ([([1], ⟨[7], false⟩)] : Mem),
        kp.1.length < 2 ^ 32 ∧ kp.2.value.length < 2 ^ 32) ∧
    ([([1], ⟨[7], false⟩)] : Mem).length < 2 ^ 31 ∧
    createAndWriteSSTable [([1], ⟨[7], false⟩)] =
      some ((createAndWriteSSTable [([1], ⟨[7], false⟩)]).getD []) ∧
    (∃ e0 rest, sortEntries (memToEntries [([1], ⟨[7], false⟩)]) = e0 :: rest ∧
      readSSTable ((createAndWriteSSTable [([1], ⟨[7], false⟩)]).getD []) =
        some ⟨⟨MagicNumber, (e0 :: rest).length, pad4 e0.key,
            pad4 (((e0 :: rest).getLastD e0).key), 1⟩, e0 :: rest,
            calculateChecksum (e0 :: rest)⟩ ∧
      entriesSortedLe (e0 :: rest) = true ∧
      ∀ x ∈ e0 :: rest, keyLe e0.key x.key = true ∧
        keyLe x.key (((e0 :: rest).getLastD e0).key) = true) :=
  ⟨by decide, by decide, by decide,
    sstable_write_read_roundtrip [([1], ⟨[7], false⟩)] _ (by decide) (by decide) (by decide)⟩

/-! ## Byte-level WAL model (wal.go)

The WAL file holds a 16-byte metadata header (big-endian u64 `Offset`, then
u64 `Watermark`) followed by records.  We keep the in-memory metadata as the
`offset`/`watermark` fields (every operation of wal.go finishes by rewriting
the on-disk copy with `writeMetadata`, so the fields and the header bytes
agree after each returned call) and model the record region `data`
explicitly: byte `data[i]` sits at absolute file position `16 + i`. -/

/-- A WAL record (wal.go `WALRecord`); `op` is the uint8 `Operation`
(OpSet = 0, OpDel = 1). -/
structure WALRecord where
  op : Nat
  key : List Nat
  value : List Nat
  deriving DecidableEq, Repr

/-- WAL state: in-memory metadata plus the record region of the file. -/
structure WALFile where
  offset : Nat
  watermark : Nat
  data : List Nat
  deriving DecidableEq, Repr

/-- `io.ReadFull` of `n` bytes at absolute position `pos` (>= 16, inside the
record region): fails if fewer than `n` bytes remain before end of file. -/
def readFull (w : WALFile) (pos n : Nat) : Option (List Nat) :=
  if 16 ≤ pos ∧ pos + n ≤ 16 + w.data.length then
    some (((w.data.drop (pos - 16)).take n : List Nat))
  else none

/-- The encoded form of one WAL record: op byte, u32 key length, u32 value
length, key bytes, value bytes (`WriteEntry`). -/
def encodeWALRecord (r : WALRecord) : List Nat :=
  r.op % 256 :: (be32 r.key.length ++ be32 r.value.length ++ r.key ++ r.value)

/-- Write `bs` into `l` starting at position `pos` (zero-filling a gap, as a
seek past the end would). `WriteEntry` always writes at `offset`, which in
every reachable state is the end of the file. -/
def writeBytesAt (l : List Nat) (pos : Nat) (bs : List Nat) : List Nat :=
  l.take pos ++ List.replicate (pos - l.length) 0 ++ bs ++ l.drop (pos + bs.length)

/-- `WriteEntry` of wal.go: seek to `Offset`, write header and body, advance
`Offset` by the record size, rewrite metadata. -/
def walWriteEntry (w : WALFile) (r : WALRecord) : WALFile :=
  let bs := encodeWALRecord r
  { w with data := writeBytesAt w.data (w.offset - 16) bs, offset := w.offset + bs.length }

/-- `ReadNextEntry` of wal.go: seek to `Watermark`, read the 9-byte record
header, then the key and the value; move `Watermark` to the position after
the record and rewrite metadata.  There is no `Watermark == Offset` check:
whatever bytes sit at the watermark are parsed. -/
def walReadNextEntry (w : WALFile) : Option (WALRecord × WALFile) :=
  match readFull w w.watermark 9 with
  | none => none
  | some hdr =>
    let op := hdr.headD 0
    let keyLen := beU32 ((hdr.drop 1).take 4)
    let valLen := beU32 (hdr.drop 5)
    match readFull w (w.watermark + 9) keyLen with
    | none => none
    | some key =>
      match readFull w (w.watermark + 9 + keyLen) valLen with
      | none => none
      | some val =>
        some (⟨op, key, val⟩, { w with watermark := w.watermark + 9 + keyLen + valLen })

/-- Claim C8 counterexample: a WAL state with `Watermark == Offset == 16`
whose file nevertheless holds a full encoded record past the watermark
(exactly what a crash between the record write and the metadata rewrite
leaves behind).  `ReadNextEntry` does NOT fail: it parses and returns the
record and advances the watermark past the offset. -/
theorem readNextEntry_stale_bytes_counterexample :
    (⟨16, 16, encodeWALRecord ⟨0, [7], [9]⟩⟩ : WALFile).watermark =
      (⟨16, 16, encodeWALRecord ⟨0, [7], [9]⟩⟩ : WALFile).offset ∧
    walReadNextEntry ⟨16, 16, encodeWALRecord ⟨0, [7], [9]⟩⟩ =
      some (⟨0, [7], [9]⟩, ⟨16, 27, encodeWALRecord ⟨0, [7], [9]⟩⟩) := by decide

/-- Claim C8 (amended): when `Watermark == Offset` and the offset is the end
of the file (no stray bytes past the watermark — the state every graceful
run maintains), `ReadNextEntry` fails on the short read of the 9-byte record
header and returns no record.  The code performs no `Watermark == Offset`
check, so if bytes do exist past the watermark they are parsed and returned
instead (see the counterexample). -/
theorem readNextEntry_drained_fails (w : WALFile)
    (hwm : w.watermark = w.offset)
    (hend : w.offset = 16 + w.data.length) :
    walReadNextEntry w = none := by
  have h9 : readFull w w.watermark 9 = none := by
    rw [readFull, if_neg]
    intro hcontra
    omega
  rw [walReadNextEntry, h9]

theorem readNextEntry_drained_fails_witness :
    (⟨16, 16, []⟩ : WALFile).watermark = (⟨16, 16, []⟩ : WALFile).offset ∧
    (⟨16, 16, []⟩ : WALFile).offset = 16 + (⟨16, 16, []⟩ : WALFile).data.length ∧
    walReadNextEntry ⟨16, 16, []⟩ = none :=
  ⟨rfl, by decide, readNextEntry_drained_fails ⟨16, 16, []⟩ rfl (by decide)⟩

/-! ## DB model (memdb.go)

The DB layer sees the WAL as a list of records plus a record-index
watermark: in every state the DB reaches, the byte watermark sits on a
record boundary (it starts at 16 and only advances by whole parsed
records), so `ReadNextEntry` returns the record at index `walWatermark`,
`WriteEntry` appends one record, and `Offset` is the end of the record list
(`walRecords.length`).  SSTables are tracked oldest-first (`SSTableIDs`)
and re-read from disk on every lookup; by `readSSTable_encode` a written
file parses back to exactly the entry slice it was created from, so the
state carries those entry slices. -/

structure DBState where
  mem : Mem
  sstables : List Table
  walRecords : List WALRecord
  walWatermark : Nat
  threshold : Nat
  deriving DecidableEq, Repr

/-- `DefaultThreshold` of memdb.go. -/
def DefaultThreshold : Nat := 100

/-- `CompactionThreshold` of memdb.go. -/
def CompactionThreshold : Nat := 2

/-- The watermark-advance loop of `FlushToSSTable`: `threshold` calls to
`ReadNextEntry`, each ignoring errors — a read at the end of the log fails
and leaves the watermark unchanged, otherwise the watermark moves past one
record. -/
def walAdvanceN : Nat → Nat → Nat → Nat
  | w, _, 0 => w
  | w, len, n + 1 => walAdvanceN (if w < len then w + 1 else w) len n

/-- `FlushToSSTable`: write the memtable to a new SSTable appended to the
(oldest-first) table list, clear the memtable, read and discard `threshold`
WAL records, persist the metadata. -/
def flushToSSTable (s : DBState) : DBState :=
  { s with
    sstables := s.sstables ++ [sortEntries (memToEntries s.mem)],
    mem := [],
    walWatermark := walAdvanceN s.walWatermark s.walRecords.length s.threshold }

/-- `Set`: install the pair in the memtable, append an OpSet WAL record,
flush if the key count reached the threshold. -/
def dbSet (s : DBState) (k : Key) (v : Value) : DBState :=
  let s' := { s with
    mem := memInsert k ⟨v, false⟩ s.mem,
    walRecords := s.walRecords ++ [⟨0, k, v⟩] }
  if s'.threshold ≤ s'.mem.length then flushToSSTable s' else s'

/-- One table probe of `GetValueFromSSTables`: `sort.Search` finds the first
entry with key >= k (on the key-sorted tables the writer produces, that is
the first such entry in file order); a hit on a different key means "not in
this table", a hit on `k` answers with the entry's operation. -/
def tableLookup (t : Table) (k : Key) : Option (Option Value) :=
  match t.find? (fun e => keyLe k e.key) with
  | some e =>
    if e.key = k then (if e.op = OpDelN then some none else some (some e.value)) else none
  | none => none

/-- `GetValueFromSSTables` iterates the tables newest to oldest
(`ReadSSTables` reverses `SSTableIDs`): a tombstone hit answers KeyNotFound
and stops, a miss moves to the next table. -/
def sstGetFrom : List Table → Key → Option Value
  | [], _ => none
  | t :: ts, k =>
    match tableLookup t k with
    | some r => r
    | none => sstGetFrom ts k

/-- `GetValueFromSSTables` (tables stored oldest first, searched newest
first). -/
def sstGet (ssts : List Table) (k : Key) : Option Value := sstGetFrom ssts.reverse k

/-- `Get`: memtable first (a tombstone answers KeyNotFound), then the
SSTables.  `none` is `ErrKeyNotFound`. -/
def getCore (mem : Mem) (ssts : List Table) (k : Key) : Option Value :=
  match memFind mem k with
  | some p => if p.marker then none else some p.value
  | none => sstGet ssts k

def dbGet (s : DBState) (k : Key) : Option Value := getCore s.mem s.sstables k

/-- The state-changing core of `Delete`: which branch runs, the returned
value and the new memtable depend only on the memtable and the tables.
A key live in the memtable is tombstoned in place (value cleared); a key
found live in a table gets a value-carrying tombstone inserted at its
sorted position; an absent or already-tombstoned key fails. -/
def deleteCore (mem : Mem) (ssts : List Table) (k : Key) : Option (Value × Mem) :=
  match memFind mem k with
  | some p =>
    if p.marker then none
    else some (p.value, memInsert k ⟨[], true⟩ mem)
  | none =>
    match sstGet ssts k with
    | some v => some (v, memInsert k ⟨v, true⟩ mem)
    | none => none

/-- `Delete`: on success, append an OpDel record (its Value is nil); on
failure return KeyNotFound with the state untouched. -/
def dbDelete (s : DBState) (k : Key) : Option Value × DBState :=
  match deleteCore s.mem s.sstables k with
  | some (v, mem') =>
    (some v, { s with mem := mem', walRecords := s.walRecords ++ [⟨1, k, []⟩] })
  | none => (none, s)

/-- The fold of `MergeSSTables`: the entries of the input tables (oldest
table first, file order within each table) are written into a fresh map —
an OpSet entry stores (value, live), an OpDel entry stores (nil, tombstone),
later entries overwriting earlier ones. -/
def mergeFold (m : Mem) (t : Table) : Mem :=
  t.foldl
    (fun acc e =>
      if e.op = OpSetN then memInsert e.key ⟨e.value, false⟩ acc
      else if e.op = OpDelN then memInsert e.key ⟨[], true⟩ acc
      else acc)
    m

/-- `MergeSSTables`: fold all inputs into one map, then write it with the
same encoder (whose file body is `sortEntries (memToEntries m)`). -/
def mergeSSTables (ts : List Table) : Table :=
  sortEntries (memToEntries (ts.foldl mergeFold []))

/-- The loop of `CompactSSTables`: while at least `CompactionThreshold`
tables exist, merge the oldest `CompactionThreshold` into a single table
placed at the oldest position and drop the inputs.  Every iteration
shortens the list, so its initial length bounds the iteration count. -/
def compactLoop : List Table → Nat → List Table
  | ts, 0 => ts
  | ts, fuel + 1 =>
    if ts.length < CompactionThreshold then ts
    else
      compactLoop (mergeSSTables (ts.take CompactionThreshold) :: ts.drop CompactionThreshold)
        fuel

/-- `CompactSSTables` (an exported method of `DB`; its automatic invocations
from `NewDB` and `FlushToSSTable` are commented out in the source). -/
def compactSSTables (s : DBState) : DBState :=
  { s with sstables := compactLoop s.sstables s.sstables.length }

/-- The replay loop of `Recover`, reading exactly the `n` records between
the watermark and the offset captured at entry: an OpSet record is replayed
through `Set`, an OpDel record through `Delete` (whose failure aborts
recovery, as does a failed read), anything else is skipped.  The records
appended by the replayed mutations land past the captured offset and are
not replayed. -/
def recoverGo : DBState → Nat → Option DBState
  | s, 0 => some s
  | s, n + 1 =>
    match s.walRecords[s.walWatermark]? with
    | none => none
    | some r =>
      let s' := { s with walWatermark := s.walWatermark + 1 }
      if r.op = 0 then recoverGo (dbSet s' r.key r.value) n
      else if r.op = 1 then
        match dbDelete s' r.key with
        | (some _, s2) => recoverGo s2 n
        | (none, _) => none
      else recoverGo s' n

/-- `Recover`: replay the records between the watermark and the offset. -/
def dbRecover (s : DBState) : Option DBState :=
  recoverGo s (s.walRecords.length - s.walWatermark)

/-- Crash then `NewDB` on the same WAL file and SSTable directory: the
memtable is lost, the WAL (records and metadata, both persisted before each
mutation returned) and the SSTable files survive; `NewDB` rebuilds the
table list from the directory in modification-time (= creation) order and
runs `Recover`. -/
def reopenDB (s : DBState) : Option DBState :=
  dbRecover { s with mem := [] }

/-- A client mutation. -/
inductive StoreOp where
  | set (k : Key) (v : Value)
  | del (k : Key)
  deriving DecidableEq, Repr

def StoreOp.key : StoreOp → Key
  | .set k _ => k
  | .del k => k

def applyOp (s : DBState) : StoreOp → DBState
  | .set k v => dbSet s k v
  | .del k => (dbDelete s k).2

def applyOps : DBState → List StoreOp → DBState
  | s, [] => s
  | s, op :: ops => applyOps (applyOp s op) ops

/-- The WAL records a mutation appends: one OpSet record per Set, one OpDel
record per successful Delete, nothing for a failed Delete. -/
def emitOp (s : DBState) : StoreOp → List WALRecord
  | .set k v => [⟨0, k, v⟩]
  | .del k =>
    match deleteCore s.mem s.sstables k with
    | some _ => [⟨1, k, []⟩]
    | none => []

def emitOps : DBState → List StoreOp → List WALRecord
  | _, [] => []
  | s, op :: ops => emitOp s op ++ emitOps (applyOp s op) ops

/-- No Set of the sequence fills the memtable up to the threshold, so no
flush runs while the sequence is applied. -/
def noFlushStep (s : DBState) : StoreOp → Bool
  | .set k v => decide ((memInsert k ⟨v, false⟩ s.mem).length < s.threshold)
  | .del _ => true

def noFlush : DBState → List StoreOp → Bool
  | _, [] => true
  | s, op :: ops => noFlushStep s op && noFlush (applyOp s op) ops

/-- The last mutation of the sequence whose key is `k`. -/
def lastMutOn : List StoreOp → Key → Option StoreOp
  | [], _ => none
  | op :: ops, k =>
    match lastMutOn ops k with
    | some o => some o
    | none => if op.key = k then some op else none

/-! ## Claims C3 and C5 -/

/-- Claim C3: compaction is NOT Get-preserving — the code resurrects deleted
keys.  With threshold 1: Set [1] [10]; Set [2] [20]; Delete [1];
Set [3] [30] leaves three tables, the newest holding the tombstone pair
(Del [1], Set [1] [10]).  Get [1] is KeyNotFound.  Running `CompactSSTables`
merges all tables; `MergeSSTables` folds the pair with the Set last, so the
merged table holds [1] as a live key and Get [1] afterwards returns the
pre-delete value [10].  The tombstone semantics that `GetValueFromSSTables`
documents (a deletion marker answers KeyNotFound) is the clear intent; the
missing `else` in `CreateAndWriteSSTable`'s tombstone emission combined with
the merge fold order is the slip. -/
theorem compaction_resurrects_tombstone :
    dbGet (applyOps ⟨[], [], [], 0, 1⟩
        [.set [1] [10], .set [2] [20], .del [1], .set [3] [30]]) [1] = none ∧
    dbGet (compactSSTables (applyOps ⟨[], [], [], 0, 1⟩
        [.set [1] [10], .set [2] [20], .del [1], .set [3] [30]])) [1] = some [10] := by
  decide

/-- Claim C5 counterexample: with threshold 2, the sequence Set [1] [10];
Set [1] [11]; Set [2] [20] writes three WAL records and then flushes a
memtable of two keys.  The flush advances the watermark by exactly
`threshold` = 2 records, so the record at index 2 — Set [2] [20], whose
effect IS captured in the flushed SSTable — does not lie below the new
watermark, refuting "every WAL record applied to the flushed memtable
contents lies below the new watermark". -/
theorem flush_watermark_counterexample :
    (applyOps ⟨[], [], [], 0, 2⟩
        [.set [1] [10], .set [1] [11], .set [2] [20]]).walWatermark = 2 ∧
    (applyOps ⟨[], [], [], 0, 2⟩
        [.set [1] [10], .set [1] [11], .set [2] [20]]).walRecords[2]? =
      some ⟨0, [2], [20]⟩ ∧
    (applyOps ⟨[], [], [], 0, 2⟩
        [.set [1] [10], .set [1] [11], .set [2] [20]]).sstables =
      [[⟨0, [1], [11]⟩, ⟨0, [2], [20]⟩]] ∧
    (applyOps ⟨[], [], [], 0, 2⟩
        [.set [1] [10], .set [1] [11], .set [2] [20]]).mem = [] := by
  decide

theorem walAdvanceN_eq_min (w len n : Nat) (h : w ≤ len) :
    walAdvanceN w len n = min (w + n) len := by
  induction n generalizing w with
  | zero =>
    simp only [walAdvanceN]
    omega
  | succ n ih =>
    simp only [walAdvanceN]
    by_cases hw : w < len
    · rw [if_pos hw, ih (w + 1) (by omega)]
      omega
    · rw [if_neg hw, ih w h]
      omega

/-- Claim C5 (amended): a successful `FlushToSSTable` (non-empty memtable)
captures the whole memtable in the new newest SSTable, resets the memtable,
and advances the WAL watermark past exactly `threshold` records (or to the
offset when fewer remain) — NOT past exactly the records whose effects were
flushed: the two coincide only when every record since the last flush
created a distinct new key. -/
theorem flush_advances_watermark_by_threshold (s : DBState)
    (hmem : s.mem ≠ []) (hwm : s.walWatermark ≤ s.walRecords.length) :
    (flushToSSTable s).walWatermark =
      min (s.walWatermark + s.threshold) s.walRecords.length ∧
    (flushToSSTable s).mem = [] ∧
    (flushToSSTable s).sstables = s.sstables ++ [sortEntries (memToEntries s.mem)] :=
  ⟨walAdvanceN_eq_min _ _ _ hwm, rfl, rfl⟩

theorem flush_advances_watermark_by_threshold_witness :
    (⟨[([1], ⟨[10], false⟩)], [], [⟨0, [1], [10]⟩], 0, 2⟩ : DBState).mem ≠ [] ∧
    (⟨[([1], ⟨[10], false⟩)], [], [⟨0, [1], [10]⟩], 0, 2⟩ : DBState).walWatermark ≤
      (⟨[([1], ⟨[10], false⟩)], [], [⟨0, [1], [10]⟩], 0, 2⟩ : DBState).walRecords.length ∧
    (flushToSSTable ⟨[([1], ⟨[10], false⟩)], [], [⟨0, [1], [10]⟩], 0, 2⟩).walWatermark =
      min (0 + 2) 1 :=
  ⟨by decide, by decide,
    (flush_advances_watermark_by_threshold _ (by decide) (by decide)).1⟩

/-! ## Lookup in a flushed table -/

theorem keyLe_false_of_lt {a b : Key} (h : keyLt a b = true) : keyLe b a = false := by
  simp [keyLe, h]

theorem tableLookup_cons_skip {e : KeyValuePair} {t : Table} {k : Key}
    (h : keyLe k e.key = false) : tableLookup (e :: t) k = tableLookup t k := by
  simp only [tableLookup]
  rw [List.find?_cons_of_neg]
  simp [h]

theorem tableLookup_cons_hit {e : KeyValuePair} {t : Table} {k : Key}
    (hp : keyLe k e.key = true) (hk : e.key = k) :
    tableLookup (e :: t) k = some (if e.op = OpDelN then none else some e.value) := by
  simp only [tableLookup]
  rw [List.find?_cons_of_pos]
  · simp only
    rw [if_pos hk]
    by_cases hop : e.op = OpDelN
    · rw [if_pos hop, if_pos hop]
    · rw [if_neg hop, if_neg hop]
  · exact hp

/-- Looking a present key up in the table flushed from a sorted memtable:
a live pair answers its value, a tombstoned pair answers KeyNotFound
(the `Del` entry of the emitted pair precedes the `Set` entry, and
`sort.Search` stops at the first entry with key >= k). -/
theorem tableLookup_memToEntries {m : Mem} {k : Key} {p : Pair}
    (hs : memSortedB m = true) (hf : memFind m k = some p) :
    tableLookup (memToEntries m) k = some (if p.marker then none else some p.value) := by
  induction m with
  | nil => simp [memFind] at hf
  | cons hd rest ih =>
    obtain ⟨k', p'⟩ := hd
    by_cases hlt : keyLt k' k = true
    · have hne : k' ≠ k := keyLt_ne hlt
      have hf' : memFind rest k = some p := by
        simpa [memFind, hne] using hf
      have hs' : memSortedB rest = true := memSortedB_tail hs
      have hle : keyLe k k' = false := keyLe_false_of_lt hlt
      rw [memToEntries_cons]
      cases hm' : p'.marker
      · rw [if_neg Bool.false_ne_true, List.nil_append, tableLookup_cons_skip hle]
        exact ih hs' hf'
      · rw [if_pos rfl, List.singleton_append, tableLookup_cons_skip hle,
          tableLookup_cons_skip hle]
        exact ih hs' hf'
    · by_cases heq : k' = k
      · subst heq
        have hp : p' = p := by simpa [memFind] using hf
        subst hp
        rw [memToEntries_cons]
        cases hm' : p'.marker
        · rw [if_neg Bool.false_ne_true, List.nil_append,
            tableLookup_cons_hit (keyLe_refl k') rfl]
          simp [OpSetN, OpDelN, hm']
        · rw [if_pos rfl, List.singleton_append,
            tableLookup_cons_hit (keyLe_refl k') rfl]
          simp [OpDelN, hm']
      · have hgt : keyLt k k' = true := keyLt_total hlt heq
        have hf' : memFind rest k = some p := by
          simpa [memFind, heq] using hf
        have := memFind_tail_gt hs hf'
        exact absurd this (keyLt_asymm hgt)

theorem sstGet_flushed {mem : Mem} {ssts : List Table} {k : Key} {p : Pair}
    (hs : memSortedB mem = true) (hf : memFind mem k = some p) :
    sstGet (ssts ++ [sortEntries (memToEntries mem)]) k =
      if p.marker then none else some p.value := by
  simp only [sstGet]
  rw [List.reverse_append]
  simp only [List.reverse_cons, List.reverse_nil, List.nil_append, List.singleton_append]
  rw [sortEntries_eq_of_sorted (memToEntries_sorted hs)]
  simp only [sstGetFrom]
  rw [tableLookup_memToEntries hs hf]

theorem deleteCore_mem_live {mem : Mem} {ssts : List Table} {k : Key} {v : Value}
    (h : memFind mem k = some ⟨v, false⟩) :
    deleteCore mem ssts k = some (v, memInsert k ⟨[], true⟩ mem) := by
  simp [deleteCore, h]

theorem deleteCore_mem_none {mem : Mem} {ssts : List Table} {k : Key} {v : Value}
    (h1 : memFind mem k = none) (h2 : sstGet ssts k = some v) :
    deleteCore mem ssts k = some (v, memInsert k ⟨v, true⟩ mem) := by
  simp [deleteCore, h1, h2]

theorem dbDelete_of_core {s : DBState} {k : Key} {v : Value} {mem2 : Mem}
    (h : deleteCore s.mem s.sstables k = some (v, mem2)) :
    dbDelete s k =
      (some v, (⟨mem2, s.sstables, s.walRecords ++ [⟨1, k, []⟩],
        s.walWatermark, s.threshold⟩ : DBState)) := by
  simp [dbDelete, h]

/-- Claim C2: in a single-threaded run from any reachable state (sorted
memtable), `Set(k,v); Get(k)` returns v; `Set(k,v); Delete(k)` succeeds
returning v, after which `Get(k)` is KeyNotFound — including when the Set
fills the memtable and flushes, so the Get/Delete resolve from the newest
SSTable. -/
theorem set_get_delete_readback (s : DBState) (k : Key) (v : Value)
    (hs : memSortedB s.mem = true) :
    dbGet (dbSet s k v) k = some v ∧
    (dbDelete (dbSet s k v) k).1 = some v ∧
    dbGet (dbDelete (dbSet s k v) k).2 k = none := by
  have hfind := memFind_memInsert_self k ⟨v, false⟩ s.mem
  have hsorted' : memSortedB (memInsert k ⟨v, false⟩ s.mem) = true :=
    memSortedB_memInsert _ _ _ hs
  by_cases hth : s.threshold ≤ (memInsert k ⟨v, false⟩ s.mem).length
  · -- flush path: the Set resets the memtable and the key resolves from
    -- the just-written newest SSTable
    have h1 : dbSet s k v = flushToSSTable
        { s with mem := memInsert k ⟨v, false⟩ s.mem,
                 walRecords := s.walRecords ++ [⟨0, k, v⟩] } := by
      simp only [dbSet]
      rw [if_pos hth]
    rw [h1]
    set u := flushToSSTable
        { s with mem := memInsert k ⟨v, false⟩ s.mem,
                 walRecords := s.walRecords ++ [⟨0, k, v⟩] } with hu
    have humem : u.mem = [] := rfl
    have husst : u.sstables =
        s.sstables ++ [sortEntries (memToEntries (memInsert k ⟨v, false⟩ s.mem))] := rfl
    have hsst : sstGet u.sstables k = some v := by
      rw [husst, sstGet_flushed hsorted' hfind]
      rfl
    have hdc : deleteCore u.mem u.sstables k =
        some (v, memInsert k ⟨v, true⟩ u.mem) := by
      rw [humem]
      exact deleteCore_mem_none rfl hsst
    have hget : dbGet u k = some v := by
      show getCore u.mem u.sstables k = some v
      rw [humem]
      simp only [getCore, memFind]
      exact hsst
    have hdel := dbDelete_of_core hdc
    refine ⟨hget, ?_, ?_⟩
    · rw [hdel]
    · rw [hdel]
      show getCore (memInsert k ⟨v, true⟩ u.mem) u.sstables k = none
      simp only [getCore]
      rw [memFind_memInsert_self]
      rfl
  · have h1 : dbSet s k v =
        { s with mem := memInsert k ⟨v, false⟩ s.mem,
                 walRecords := s.walRecords ++ [⟨0, k, v⟩] } := by
      simp only [dbSet]
      rw [if_neg hth]
    rw [h1]
    set u : DBState :=
        { s with mem := memInsert k ⟨v, false⟩ s.mem,
                 walRecords := s.walRecords ++ [⟨0, k, v⟩] } with hu
    have humem : u.mem = memInsert k ⟨v, false⟩ s.mem := rfl
    have hget : dbGet u k = some v := by
      show getCore u.mem u.sstables k = some v
      rw [humem]
      simp only [getCore]
      rw [hfind]
      rfl
    have hdc : deleteCore u.mem u.sstables k =
        some (v, memInsert k ⟨[], true⟩ u.mem) := by
      rw [humem]
      exact deleteCore_mem_live hfind
    have hdel := dbDelete_of_core hdc
    refine ⟨hget, ?_, ?_⟩
    · rw [hdel]
    · rw [hdel]
      show getCore (memInsert k ⟨[], true⟩ u.mem) u.sstables k = none
      simp only [getCore]
      rw [memFind_memInsert_self]
      rfl

theorem set_get_delete_readback_witness :
    memSortedB (⟨[], [], [], 0, 1⟩ : DBState).mem = true ∧
    (dbGet (dbSet ⟨[], [], [], 0, 1⟩ [2] [9]) [2] = some [9] ∧
     (dbDelete (dbSet ⟨[], [], [], 0, 1⟩ [2] [9]) [2]).1 = some [9] ∧
     dbGet (dbDelete (dbSet ⟨[], [], [], 0, 1⟩ [2] [9]) [2]).2 [2] = none) :=
  ⟨by decide, set_get_delete_readback ⟨[], [], [], 0, 1⟩ [2] [9] (by decide)⟩

/-- Claim C6: whenever `Delete(k)` returns a value (no error), that value is
exactly what `Get(k)` on the pre-delete state returns — whether the key was
live in the memtable or resolved from an SSTable. -/
theorem delete_returns_previous_get (s : DBState) (k : Key) (v : Value)
    (h : (dbDelete s k).1 = some v) : dbGet s k = some v := by
  simp only [dbDelete] at h
  simp only [dbGet, getCore]
  cases hf : memFind s.mem k with
  | some p =>
    simp only [deleteCore, hf] at h
    by_cases hm : p.marker = true
    · simp [hm] at h
    · simp [hm] at h ⊢
      exact h
  | none =>
    simp only [deleteCore, hf] at h
    cases hg : sstGet s.sstables k with
    | none => simp [hg] at h
    | some w =>
      simp [hg] at h
      simp [hg, h]

theorem delete_returns_previous_get_witness :
    (dbDelete ⟨[([1], ⟨[10], false⟩)], [], [], 0, 10⟩ [1]).1 = some [10] ∧
    dbGet ⟨[([1], ⟨[10], false⟩)], [], [], 0, 10⟩ [1] = some [10] :=
  ⟨by decide, delete_returns_previous_get _ [1] [10] (by decide)⟩

/-- Claim C7: deleting an absent key (not in the memtable and not live in
any SSTable, or whose most recent record is a tombstone — exactly the
states where Get answers KeyNotFound) returns KeyNotFound, appends no WAL
record, and leaves the whole state (memtable, sorted view, SSTable list,
WAL) unchanged. -/
theorem delete_absent_is_noop (s : DBState) (k : Key)
    (h : dbGet s k = none) : dbDelete s k = (none, s) := by
  simp only [dbGet, getCore] at h
  simp only [dbDelete]
  cases hf : memFind s.mem k with
  | some p =>
    simp only [hf] at h
    by_cases hm : p.marker = true
    · simp [deleteCore, hf, hm]
    · simp [hm] at h
  | none =>
    simp only [hf] at h
    simp [deleteCore, hf, h]

theorem delete_absent_is_noop_witness :
    dbGet ⟨[], [], [], 0, 10⟩ [3] = none ∧
    dbDelete ⟨[], [], [], 0, 10⟩ [3] = (none, ⟨[], [], [], 0, 10⟩) :=
  ⟨by decide, delete_absent_is_noop ⟨[], [], [], 0, 10⟩ [3] (by decide)⟩

/-! ## Recovery machinery (Claim C1) -/

theorem applyOp_set_noflush (s : DBState) (k : Key) (v : Value)
    (h : ¬ s.threshold ≤ (memInsert k ⟨v, false⟩ s.mem).length) :
    applyOp s (.set k v) =
      { s with mem := memInsert k ⟨v, false⟩ s.mem,
               walRecords := s.walRecords ++ [⟨0, k, v⟩] } := by
  simp only [applyOp, dbSet]
  rw [if_neg h]

theorem applyOp_del_none (s : DBState) (k : Key)
    (h : deleteCore s.mem s.sstables k = none) : applyOp s (.del k) = s := by
  simp [applyOp, dbDelete, h]

theorem applyOp_del_some (s : DBState) (k : Key) {v : Value} {m2 : Mem}
    (h : deleteCore s.mem s.sstables k = some (v, m2)) :
    applyOp s (.del k) =
      { s with mem := m2, walRecords := s.walRecords ++ [⟨1, k, []⟩] } := by
  simp only [applyOp]
  rw [dbDelete_of_core h]

theorem deleteCore_some_shape {mem : Mem} {ssts : List Table} {k : Key} {v : Value}
    {m2 : Mem} (h : deleteCore mem ssts k = some (v, m2)) :
    m2 = memInsert k ⟨[], true⟩ mem ∨ m2 = memInsert k ⟨v, true⟩ mem := by
  simp only [deleteCore] at h
  cases hf : memFind mem k with
  | some p =>
    rw [hf] at h
    by_cases hm : p.marker = true
    · simp [hm] at h
    · simp [hm] at h
      exact Or.inl h.2.symm
  | none =>
    rw [hf] at h
    cases hg : sstGet ssts k with
    | none => rw [hg] at h; simp at h
    | some w =>
      rw [hg] at h
      simp at h
      rw [← h.1]
      exact Or.inr h.2.symm

/-- Delete fails exactly on the keys Get reports as absent. -/
theorem deleteCore_none_iff_get_none {mem : Mem} {ssts : List Table} {k : Key} :
    deleteCore mem ssts k = none ↔ getCore mem ssts k = none := by
  simp only [deleteCore, getCore]
  cases hf : memFind mem k with
  | some p =>
    by_cases hm : p.marker = true
    · simp [hm]
    · simp [hm]
  | none =>
    cases hg : sstGet ssts k with
    | none => simp [hg]
    | some w => simp [hg]

theorem recoverGo_cons_set (r : DBState) (k : Key) (v : Value) (n : Nat)
    (hr : r.walRecords[r.walWatermark]? = some ⟨0, k, v⟩) :
    recoverGo r (n + 1) =
      recoverGo (dbSet { r with walWatermark := r.walWatermark + 1 } k v) n := by
  simp only [recoverGo]
  rw [hr]
  rfl

theorem recoverGo_cons_del (r : DBState) (k : Key) (n : Nat) {v : Value} {s2 : DBState}
    (hr : r.walRecords[r.walWatermark]? = some ⟨1, k, []⟩)
    (hdel : dbDelete { r with walWatermark := r.walWatermark + 1 } k = (some v, s2)) :
    recoverGo r (n + 1) = recoverGo s2 n := by
  simp only [recoverGo]
  rw [hr]
  show (match dbDelete { r with walWatermark := r.walWatermark + 1 } k with
      | (some _, s2) => recoverGo s2 n
      | (none, _) => none) = recoverGo s2 n
  rw [hdel]

theorem applyOp_walRecords (s : DBState) (op : StoreOp) :
    (applyOp s op).walRecords = s.walRecords ++ emitOp s op := by
  cases op with
  | set k v =>
    simp only [applyOp, dbSet, emitOp]
    by_cases hth : s.threshold ≤ (memInsert k ⟨v, false⟩ s.mem).length
    · rw [if_pos hth]
      rfl
    · rw [if_neg hth]
  | del k =>
    simp only [emitOp]
    cases hdc : deleteCore s.mem s.sstables k with
    | none =>
      rw [applyOp_del_none s k hdc]
      simp
    | some pr =>
      obtain ⟨v, m2⟩ := pr
      rw [applyOp_del_some s k hdc]

theorem applyOps_walRecords (ops : List StoreOp) :
    ∀ s : DBState, (applyOps s ops).walRecords = s.walRecords ++ emitOps s ops := by
  induction ops with
  | nil => intro s; simp [applyOps, emitOps]
  | cons op rest ih =>
    intro s
    simp only [applyOps, emitOps]
    rw [ih (applyOp s op), applyOp_walRecords, List.append_assoc]

theorem applyOp_threshold (s : DBState) (op : StoreOp) :
    (applyOp s op).threshold = s.threshold := by
  cases op with
  | set k v =>
    simp only [applyOp, dbSet]
    by_cases hth : s.threshold ≤ (memInsert k ⟨v, false⟩ s.mem).length
    · rw [if_pos hth]
      rfl
    · rw [if_neg hth]
  | del k =>
    cases hdc : deleteCore s.mem s.sstables k with
    | none => rw [applyOp_del_none s k hdc]
    | some pr =>
      obtain ⟨v, m2⟩ := pr
      rw [applyOp_del_some s k hdc]

theorem applyOps_threshold (ops : List StoreOp) :
    ∀ s : DBState, (applyOps s ops).threshold = s.threshold := by
  induction ops with
  | nil => intro s; rfl
  | cons op rest ih =>
    intro s
    simp only [applyOps]
    rw [ih, applyOp_threshold]

/-- With no flush, an applied mutation keeps the SSTable list and the
watermark, and preserves sortedness of the memtable. -/
theorem applyOp_noflush_inv (s : DBState) (op : StoreOp)
    (hnf : noFlushStep s op = true) :
    (applyOp s op).sstables = s.sstables ∧
    (applyOp s op).walWatermark = s.walWatermark ∧
    (memSortedB s.mem = true → memSortedB (applyOp s op).mem = true) := by
  cases op with
  | set k v =>
    have hlt : ¬ s.threshold ≤ (memInsert k ⟨v, false⟩ s.mem).length := by
      simp only [noFlushStep, decide_eq_true_eq] at hnf
      omega
    rw [applyOp_set_noflush s k v hlt]
    exact ⟨rfl, rfl, fun h => memSortedB_memInsert _ _ _ h⟩
  | del k =>
    cases hdc : deleteCore s.mem s.sstables k with
    | none =>
      rw [applyOp_del_none s k hdc]
      exact ⟨rfl, rfl, fun h => h⟩
    | some pr =>
      obtain ⟨v, m2⟩ := pr
      rw [applyOp_del_some s k hdc]
      refine ⟨rfl, rfl, fun h => ?_⟩
      rcases deleteCore_some_shape hdc with h2 | h2 <;>
        (rw [h2]; exact memSortedB_memInsert _ _ _ h)

theorem applyOps_noflush_inv (ops : List StoreOp) :
    ∀ s : DBState, noFlush s ops = true →
      (applyOps s ops).sstables = s.sstables ∧
      (applyOps s ops).walWatermark = s.walWatermark ∧
      (memSortedB s.mem = true → memSortedB (applyOps s ops).mem = true) := by
  induction ops with
  | nil => intro s _; exact ⟨rfl, rfl, fun h => h⟩
  | cons op rest ih =>
    intro s hnf
    simp only [noFlush, Bool.and_eq_true] at hnf
    have h1 := applyOp_noflush_inv s op hnf.1
    have h2 := ih (applyOp s op) hnf.2
    simp only [applyOps]
    exact ⟨h2.1.trans h1.1, h2.2.1.trans h1.2.1, fun h => h2.2.2 (h1.2.2 h)⟩

/-- Shifting the pending-records correspondence one record forward: the
replayed mutation appended one record at the end of the log (past the
captured offset), which leaves every pending index unchanged. -/
theorem shift_index {α : Type} (recs : List α) (x : α) (w : Nat) (r0 : α) (tail : List α)
    (h : ∀ i, i < (r0 :: tail).length → recs[w + i]? = (r0 :: tail)[i]?) :
    ∀ i, i < tail.length → (recs ++ [x])[w + 1 + i]? = tail[i]? := by
  intro i hi
  have h2 : recs[w + (i + 1)]? = tail[i]? := by
    have := h (i + 1) (by simpa using Nat.succ_lt_succ hi)
    rwa [List.getElem?_cons_succ] at this
  have hsome : tail[i]? = some (tail[i]) := List.getElem?_eq_getElem hi
  have hlt : w + (i + 1) < recs.length := by
    have hx : recs[w + (i + 1)]? = some (tail[i]) := by rw [h2]; exact hsome
    exact (List.getElem?_eq_some.mp hx).1
  have harith : w + 1 + i = w + (i + 1) := by omega
  rw [harith, List.getElem?_append_left hlt, h2]

/-- Replay simulation: running the recovery loop over exactly the records a
mutation sequence emitted, from any state that agrees with the pre-mutation
state on the memtable, the SSTable list and the threshold (and whose WAL
holds those records at the pending positions), reproduces the memtable of
the post-mutation state and leaves the SSTable list and threshold alone. -/
theorem recover_sim (ops : List StoreOp) :
    ∀ (u r : DBState),
      r.mem = u.mem → r.sstables = u.sstables → r.threshold = u.threshold →
      noFlush u ops = true →
      (∀ i, i < (emitOps u ops).length →
        r.walRecords[r.walWatermark + i]? = (emitOps u ops)[i]?) →
      ∃ rr, recoverGo r (emitOps u ops).length = some rr ∧
        rr.mem = (applyOps u ops).mem ∧ rr.sstables = u.sstables ∧
        rr.threshold = u.threshold := by
  induction ops with
  | nil =>
    intro u r hm hss hth _ _
    exact ⟨r, rfl, by simpa [applyOps] using hm, hss, hth⟩
  | cons op rest ih =>
    intro u r hm hss hth hnf hidx
    have hnf1 : noFlushStep u op = true := by
      simp only [noFlush, Bool.and_eq_true] at hnf
      exact hnf.1
    have hnfrest : noFlush (applyOp u op) rest = true := by
      simp only [noFlush, Bool.and_eq_true] at hnf
      exact hnf.2
    cases op with
    | set k v =>
      have hemit : emitOps u (.set k v :: rest) =
          ⟨0, k, v⟩ :: emitOps (applyOp u (.set k v)) rest := rfl
      have hr0 : r.walRecords[r.walWatermark]? = some ⟨0, k, v⟩ := by
        have := hidx 0 (by rw [hemit]; simp)
        simpa [hemit] using this
      have hltu : ¬ u.threshold ≤ (memInsert k ⟨v, false⟩ u.mem).length := by
        simp only [noFlushStep, decide_eq_true_eq] at hnf1
        omega
      have hu' := applyOp_set_noflush u k v hltu
      have hltr : ¬ ({ r with walWatermark := r.walWatermark + 1 } : DBState).threshold ≤
          (memInsert k ⟨v, false⟩
            ({ r with walWatermark := r.walWatermark + 1 } : DBState).mem).length := by
        show ¬ r.threshold ≤ (memInsert k ⟨v, false⟩ r.mem).length
        rw [hm, hth]
        exact hltu
      have hr2eq : dbSet { r with walWatermark := r.walWatermark + 1 } k v =
          (⟨memInsert k ⟨v, false⟩ r.mem, r.sstables, r.walRecords ++ [⟨0, k, v⟩],
            r.walWatermark + 1, r.threshold⟩ : DBState) := by
        have h := applyOp_set_noflush { r with walWatermark := r.walWatermark + 1 } k v hltr
        simp only [applyOp] at h
        rw [h]
      have hstep := recoverGo_cons_set r k v (emitOps (applyOp u (.set k v)) rest).length hr0
      rw [hr2eq] at hstep
      have hidx2 : ∀ i, i < (emitOps (applyOp u (.set k v)) rest).length →
          (r.walRecords ++ [⟨0, k, v⟩])[r.walWatermark + 1 + i]? =
            (emitOps (applyOp u (.set k v)) rest)[i]? := by
        intro i hi
        exact shift_index r.walRecords ⟨0, k, v⟩ r.walWatermark ⟨0, k, v⟩
          (emitOps (applyOp u (.set k v)) rest) (fun j hj => by
            have := hidx j (by rw [hemit]; simpa using hj)
            rwa [hemit] at this) i hi
      obtain ⟨rr, hrr, h1, h2, h3⟩ := ih (applyOp u (.set k v))
        ⟨memInsert k ⟨v, false⟩ r.mem, r.sstables, r.walRecords ++ [⟨0, k, v⟩],
          r.walWatermark + 1, r.threshold⟩
        (by rw [hu']; show memInsert k ⟨v, false⟩ r.mem = memInsert k ⟨v, false⟩ u.mem;
            rw [hm])
        (by rw [hu']; exact hss)
        (by rw [hu']; exact hth)
        hnfrest hidx2
      refine ⟨rr, ?_, ?_, ?_, ?_⟩
      · rw [hemit, List.length_cons, hstep]
        exact hrr
      · simp only [applyOps] at h1 ⊢
        exact h1
      · rw [h2, hu']
      · rw [h3, hu']
    | del k =>
      cases hdc : deleteCore u.mem u.sstables k with
      | none =>
        have happ : applyOp u (.del k) = u := applyOp_del_none u k hdc
        have hemit : emitOps u (.del k :: rest) = emitOps u rest := by
          simp only [emitOps, emitOp]
          rw [hdc, happ]
          simp
        rw [happ] at hnfrest
        obtain ⟨rr, h0, h1, h2, h3⟩ := ih u r hm hss hth hnfrest
          (fun i hi => by
            have := hidx i (by rwa [hemit])
            rwa [hemit] at this)
        refine ⟨rr, ?_, ?_, h2, h3⟩
        · rw [hemit]
          exact h0
        · simp only [applyOps]
          rw [happ]
          exact h1
      | some pr =>
        obtain ⟨v, m2⟩ := pr
        have happ := applyOp_del_some u k hdc
        have hemit : emitOps u (.del k :: rest) =
            ⟨1, k, []⟩ :: emitOps (applyOp u (.del k)) rest := by
          simp only [emitOps, emitOp]
          rw [hdc]
          simp
        have hr0 : r.walRecords[r.walWatermark]? = some ⟨1, k, []⟩ := by
          have := hidx 0 (by rw [hemit]; simp)
          simpa [hemit] using this
        have hdcr : deleteCore r.mem r.sstables k = some (v, m2) := by
          rw [hm, hss]
          exact hdc
        have hdel_r : dbDelete { r with walWatermark := r.walWatermark + 1 } k =
            (some v, (⟨m2, r.sstables, r.walRecords ++ [⟨1, k, []⟩],
              r.walWatermark + 1, r.threshold⟩ : DBState)) :=
          dbDelete_of_core hdcr
        have hstep := recoverGo_cons_del r k
          (emitOps (applyOp u (.del k)) rest).length hr0 hdel_r
        have hidx2 : ∀ i, i < (emitOps (applyOp u (.del k)) rest).length →
            (r.walRecords ++ [⟨1, k, []⟩])[r.walWatermark + 1 + i]? =
              (emitOps (applyOp u (.del k)) rest)[i]? := by
          intro i hi
          exact shift_index r.walRecords ⟨1, k, []⟩ r.walWatermark ⟨1, k, []⟩
            (emitOps (applyOp u (.del k)) rest) (fun j hj => by
              have := hidx j (by rw [hemit]; simpa using hj)
              rwa [hemit] at this) i hi
        obtain ⟨rr, hrr, h1, h2, h3⟩ := ih (applyOp u (.del k))
          ⟨m2, r.sstables, r.walRecords ++ [⟨1, k, []⟩], r.walWatermark + 1, r.threshold⟩
          (by rw [happ])
          (by rw [happ]; exact hss)
          (by rw [happ]; exact hth)
          hnfrest hidx2
        refine ⟨rr, ?_, ?_, ?_, ?_⟩
        · rw [hemit, List.length_cons, hstep]
          exact hrr
        · simp only [applyOps] at h1 ⊢
          exact h1
        · rw [h2, happ]
        · rw [h3, happ]

theorem lastMutOn_none (ops : List StoreOp) (k : Key) (h : lastMutOn ops k = none) :
    ∀ op ∈ ops, op.key ≠ k := by
  induction ops with
  | nil => simp
  | cons op rest ih =>
    simp only [lastMutOn] at h
    cases hl : lastMutOn rest k with
    | some o =>
      rw [hl] at h
      exact absurd h (by simp)
    | none =>
      rw [hl] at h
      by_cases hk : op.key = k
      · rw [if_pos hk] at h
        simp at h
      · intro x hx
        rcases List.mem_cons.mp hx with hx | hx
        · subst hx
          exact hk
        · exact ih hl x hx

/-- Mutations on other keys (without a flush) do not change what Get
answers for `k`. -/
theorem dbGet_untouched (ops : List StoreOp) :
    ∀ (u : DBState) (k : Key), noFlush u ops = true → (∀ op ∈ ops, op.key ≠ k) →
      dbGet (applyOps u ops) k = dbGet u k := by
  induction ops with
  | nil => intro u k _ _; rfl
  | cons op rest ih =>
    intro u k hnf hkeys
    simp only [noFlush, Bool.and_eq_true] at hnf
    have hk : op.key ≠ k := hkeys op (List.mem_cons_self _ _)
    have hstep : dbGet (applyOp u op) k = dbGet u k := by
      cases op with
      | set j v =>
        have hj : j ≠ k := hk
        have h1 := hnf.1
        simp only [noFlushStep, decide_eq_true_eq] at h1
        have hlt : ¬ u.threshold ≤ (memInsert j ⟨v, false⟩ u.mem).length := by omega
        rw [applyOp_set_noflush u j v hlt]
        show getCore (memInsert j ⟨v, false⟩ u.mem) u.sstables k =
          getCore u.mem u.sstables k
        simp only [getCore]
        rw [memFind_memInsert_ne k j ⟨v, false⟩ u.mem hj]
      | del j =>
        have hj : j ≠ k := hk
        cases hdc : deleteCore u.mem u.sstables j with
        | none => rw [applyOp_del_none u j hdc]
        | some pr =>
          obtain ⟨v, m2⟩ := pr
          rw [applyOp_del_some u j hdc]
          show getCore m2 u.sstables k = getCore u.mem u.sstables k
          rcases deleteCore_some_shape hdc with h2 | h2 <;>
            (rw [h2]; simp only [getCore]; rw [memFind_memInsert_ne k j _ u.mem hj])
    simp only [applyOps]
    rw [ih (applyOp u op) k hnf.2 (fun x hx => hkeys x (List.mem_cons_of_mem _ hx)), hstep]

theorem dbGet_set_self (u : DBState) (k : Key) (v : Value)
    (hlt : ¬ u.threshold ≤ (memInsert k ⟨v, false⟩ u.mem).length) :
    dbGet (applyOp u (.set k v)) k = some v := by
  rw [applyOp_set_noflush u k v hlt]
  show getCore (memInsert k ⟨v, false⟩ u.mem) u.sstables k = some v
  simp only [getCore]
  rw [memFind_memInsert_self]
  rfl

theorem dbGet_del_self (u : DBState) (k : Key) :
    dbGet (applyOp u (.del k)) k = none := by
  cases hdc : deleteCore u.mem u.sstables k with
  | none =>
    rw [applyOp_del_none u k hdc]
    exact deleteCore_none_iff_get_none.mp hdc
  | some pr =>
    obtain ⟨v, m2⟩ := pr
    rw [applyOp_del_some u k hdc]
    show getCore m2 u.sstables k = none
    rcases deleteCore_some_shape hdc with h2 | h2 <;>
      (rw [h2]; simp only [getCore]; rw [memFind_memInsert_self]; rfl)

/-- After a flush-free mutation sequence, Get answers the last mutation on
each key: the last Set's value, or KeyNotFound when the last mutation was a
Delete. -/
theorem dbGet_lastMut (ops : List StoreOp) :
    ∀ (u : DBState) (k : Key), noFlush u ops = true →
      (∀ v, lastMutOn ops k = some (.set k v) → dbGet (applyOps u ops) k = some v) ∧
      (lastMutOn ops k = some (.del k) → dbGet (applyOps u ops) k = none) := by
  induction ops with
  | nil =>
    intro u k _
    constructor
    · intro v hv
      simp [lastMutOn] at hv
    · intro hv
      simp [lastMutOn] at hv
  | cons op rest ih =>
    intro u k hnf
    simp only [noFlush, Bool.and_eq_true] at hnf
    have ihr := ih (applyOp u op) k hnf.2
    cases hl : lastMutOn rest k with
    | some o =>
      have hcons : lastMutOn (op :: rest) k = some o := by
        simp [lastMutOn, hl]
      constructor
      · intro v hv
        rw [hcons] at hv
        have ho : o = StoreOp.set k v := Option.some.inj hv
        simp only [applyOps]
        exact ihr.1 v (by rw [hl, ho])
      · intro hv
        rw [hcons] at hv
        have ho : o = StoreOp.del k := Option.some.inj hv
        simp only [applyOps]
        exact ihr.2 (by rw [hl, ho])
    | none =>
      by_cases hk : op.key = k
      · have hcons : lastMutOn (op :: rest) k = some op := by
          simp [lastMutOn, hl, hk]
        have hrest_keys : ∀ x ∈ rest, x.key ≠ k := lastMutOn_none rest k hl
        have hpres : dbGet (applyOps (applyOp u op) rest) k = dbGet (applyOp u op) k :=
          dbGet_untouched rest (applyOp u op) k hnf.2 hrest_keys
        constructor
        · intro v hv
          rw [hcons] at hv
          have hop : op = StoreOp.set k v := Option.some.inj hv
          subst hop
          have h1 := hnf.1
          simp only [noFlushStep, decide_eq_true_eq] at h1
          simp only [applyOps]
          rw [hpres]
          exact dbGet_set_self u k v (by omega)
        · intro hv
          rw [hcons] at hv
          have hop : op = StoreOp.del k := Option.some.inj hv
          subst hop
          simp only [applyOps]
          rw [hpres]
          exact dbGet_del_self u k
      · have hcons : lastMutOn (op :: rest) k = none := by
          simp [lastMutOn, hl, hk]
        constructor
        · intro v hv
          rw [hcons] at hv
          exact absurd hv (by simp)
        · intro hv
          rw [hcons] at hv
          exact absurd hv (by simp)

/-- Claim C1: durability across a crash.  Mutations are applied through a
freshly opened DB (empty memtable, fully drained WAL) and no flush runs;
the process dies losing the memtable; the WAL file (each returned mutation
ended with its record and metadata on disk) and the SSTable directory
survive.  Reopening with `NewDB` — which rebuilds the table list and runs
`Recover` — succeeds and yields a state where every returned mutation is
reflected: Get answers the last Set's value, or KeyNotFound when the last
mutation on the key was a Delete (a successful one left a tombstone; a
failed one found the key already absent). -/
theorem wal_recovery_reflects_mutations (s0 : DBState) (ops : List StoreOp)
    (hmem0 : s0.mem = [])
    (hwm0 : s0.walWatermark = s0.walRecords.length)
    (hnf : noFlush s0 ops = true) :
    ∃ sr, reopenDB (applyOps s0 ops) = some sr ∧
      ∀ k : Key,
        (∀ v, lastMutOn ops k = some (.set k v) → dbGet sr k = some v) ∧
        (lastMutOn ops k = some (.del k) → dbGet sr k = none) := by
  have hinv := applyOps_noflush_inv ops s0 hnf
  have hrec := applyOps_walRecords ops s0
  have hthr := applyOps_threshold ops s0
  set s1 := applyOps s0 ops with hs1
  set r0 : DBState := { s1 with mem := [] } with hr0
  have hr0mem : r0.mem = [] := rfl
  have hr0ss : r0.sstables = s0.sstables := by
    show s1.sstables = s0.sstables
    exact hinv.1
  have hr0th : r0.threshold = s0.threshold := by
    show s1.threshold = s0.threshold
    exact hthr
  have hr0wm : r0.walWatermark = s0.walRecords.length := by
    show s1.walWatermark = s0.walRecords.length
    rw [hinv.2.1, hwm0]
  have hr0rec : r0.walRecords = s0.walRecords ++ emitOps s0 ops := by
    show s1.walRecords = _
    exact hrec
  have hidx : ∀ i, i < (emitOps s0 ops).length →
      r0.walRecords[r0.walWatermark + i]? = (emitOps s0 ops)[i]? := by
    intro i hi
    rw [hr0rec, hr0wm, List.getElem?_append_right (by omega)]
    congr 1
    omega
  obtain ⟨rr, hrr, hrrmem, hrrss, _⟩ := recover_sim ops s0 r0
    (by rw [hr0mem, hmem0]) hr0ss hr0th hnf hidx
  have hfuel : r0.walRecords.length - r0.walWatermark = (emitOps s0 ops).length := by
    rw [hr0rec, hr0wm, List.length_append]
    omega
  refine ⟨rr, ?_, ?_⟩
  · show dbRecover r0 = some rr
    simp only [dbRecover]
    rw [hfuel]
    exact hrr
  · intro k
    have hgeteq : dbGet rr k = dbGet s1 k := by
      show getCore rr.mem rr.sstables k = getCore s1.mem s1.sstables k
      rw [hrrmem, hrrss, hinv.1]
    have hlast := dbGet_lastMut ops s0 k hnf
    exact ⟨fun v hv => by rw [hgeteq]; exact hlast.1 v hv,
           fun hv => by rw [hgeteq]; exact hlast.2 hv⟩

theorem wal_recovery_reflects_mutations_witness :
    (⟨[], [], [], 0, 2⟩ : DBState).mem = [] ∧
    (⟨[], [], [], 0, 2⟩ : DBState).walWatermark =
      (⟨[], [], [], 0, 2⟩ : DBState).walRecords.length ∧
    noFlush ⟨[], [], [], 0, 2⟩ ([.set [1] [5], .del [1]] : List StoreOp) = true ∧
    (∃ sr, reopenDB (applyOps ⟨[], [], [], 0, 2⟩
        ([.set [1] [5], .del [1]] : List StoreOp)) = some sr ∧
      ∀ k : Key,
        (∀ v, lastMutOn ([.set [1] [5], .del [1]] : List StoreOp) k =
          some (.set k v) → dbGet sr k = some v) ∧
        (lastMutOn ([.set [1] [5], .del [1]] : List StoreOp) k =
          some (.del k) → dbGet sr k = none)) :=
  ⟨rfl, rfl, by decide,
    wal_recovery_reflects_mutations ⟨[], [], [], 0, 2⟩ _ rfl rfl (by decide)⟩
